import Mathlib

/-!
A verification development for the prisma-schema-editor core:
the schema parser, the schema-to-diagram converter, the schema text
mutator and the bounded undo history, shallowly embedded from the
TypeScript sources (`src/lib/prisma-parser.ts`, `src/lib/schema-generator.ts`,
the relation mutator module, `src/hooks/use-diagram-history.ts`).

Strings are embedded as Lean `String`s; where the source scans characters
we work on `String.data : List Char`.  JavaScript `\s` is embedded as
`Char.isWhitespace`, `\w` as ASCII word characters, matching the ASCII
identifier inputs the editor produces.
-/

namespace PrismaCore

/-- Relation sub-arguments of a `@relation` attribute, as produced by the
parser (`relation = { name?, fields?, references? }`).  An absent key is
`none`; the JS empty object `{}` is `⟨none, none, none⟩`. -/
structure PRelationSpec where
  rname : Option String
  rfields : Option (List String)
  references : Option (List String)
deriving Repr, DecidableEq

/-- A parsed field (`PrismaField` in `@/types/prisma`).  `relation = some _`
marks the field as relational (mirroring the JS `relation` being defined). -/
structure PrismaField where
  name : String
  type : String
  isOptional : Bool
  isList : Bool
  attributes : Option (List String)
  relation : Option PRelationSpec
deriving Repr, DecidableEq

/-- A parsed model (`PrismaModel`). -/
structure PrismaModel where
  name : String
  fields : List PrismaField
  attributes : Option (List String)
deriving Repr, DecidableEq

/-- A parsed enum declaration. -/
structure PrismaEnum where
  name : String
  values : List String
deriving Repr, DecidableEq

/-- Parsed datasource block. -/
structure PDatasource where
  provider : String
  url : Option String
deriving Repr, DecidableEq

/-- Parsed generator block. -/
structure PGenerator where
  provider : String
  output : Option String
deriving Repr, DecidableEq

/-- The document model (`ParsedPrismaSchema`). -/
structure ParsedPrismaSchema where
  models : List PrismaModel
  enums : List PrismaEnum
  datasource : Option PDatasource
  generator : Option PGenerator
deriving Repr, DecidableEq

/-- Field view projected into a diagram node (`DiagramNodeData.fields`
entries in `schema-generator.ts`). -/
structure NodeField where
  name : String
  type : String
  isOptional : Bool
  isList : Bool
  isId : Bool
  isUnique : Bool
  relationName : Option String
deriving Repr, DecidableEq

/-- Diagram node payload (`DiagramNodeData`). -/
structure DiagramNodeData where
  modelName : String
  fields : List NodeField
deriving Repr, DecidableEq

/-- A diagram node; the cosmetic screen position is not modelled (it never
feeds back into parsing or inference). -/
structure DiagramNode where
  id : String
  data : DiagramNodeData
deriving Repr, DecidableEq

/-- A diagram edge; `relationType`, `sourceField`, `targetField` are the
`data` payload of the reactflow edge, style entries are not modelled. -/
structure DiagramEdge where
  id : String
  source : String
  target : String
  sourceHandle : String
  targetHandle : String
  label : String
  relationType : String
  sourceField : String
  targetField : String
deriving Repr, DecidableEq

/-- Substring occurrence on character lists: `pat` occurs somewhere in `s`. -/
def listInfix (pat : List Char) : List Char → Bool
  | [] => pat.isPrefixOf []
  | c :: rest => pat.isPrefixOf (c :: rest) || listInfix pat rest

/-- JS substring test `a.includes(b)` on strings. -/
def strContains (s pat : String) : Bool :=
  listInfix pat.data s.data

/-- JS truthiness of an optional string (`undefined` and `""` are falsy). -/
def optStrTruthy : Option String → Bool
  | some s => !(s = "")
  | none => false

/-- `references && references.length > 0` for an optional array. -/
def optListNonempty : Option (List String) → Bool
  | some l => !(l = [])
  | none => false

/-- `o?.[0] || dflt`: first element if present and truthy, else default. -/
def firstOr (o : Option (List String)) (dflt : String) : String :=
  match o with
  | some (s :: _) => if s = "" then dflt else s
  | _ => dflt

/-- Lexicographic comparison of character lists by code point, the order JS
`Array.prototype.sort` applies to strings (code-unit order; identical on the
ASCII identifiers at hand). -/
def charListLe : List Char → List Char → Bool
  | [], _ => true
  | _ :: _, [] => false
  | a :: as, b :: bs =>
    if a.toNat < b.toNat then true
    else if a = b then charListLe as bs
    else false

/-- String comparison used by the canonical-order sort. -/
def strLe (a b : String) : Bool := charListLe a.data b.data

/-- JS `[a, b].sort()` on two strings (lexicographic, ascending). -/
def sortPair (a b : String) : String × String :=
  if strLe a b then (a, b) else (b, a)

/-- The inverse-field test of `convertSchemaToNodesAndEdges` (the predicate
passed to `targetModel.fields.find`): the candidate's type must equal the
source model's name and it must be relational; relation names must agree when
both sides carry one, a single-sided name never matches. -/
def inverseMatches (modelName : String) (field : PrismaField) (f : PrismaField) : Bool :=
  if f.type = modelName then
    match f.relation with
    | none => false
    | some frel =>
      let srcName := field.relation.bind PRelationSpec.rname
      let tgtName := frel.rname
      if optStrTruthy srcName && optStrTruthy tgtName then
        srcName = tgtName
      else if (optStrTruthy srcName && !(optStrTruthy tgtName))
           || (!(optStrTruthy srcName) && optStrTruthy tgtName) then
        false
      else
        true
  else
    false

/-- One step of the per-field edge loop of `convertSchemaToNodesAndEdges`,
threading the per-model `createdEdges` set and the accumulated edge list. -/
def processField (schema : ParsedPrismaSchema) (model : PrismaModel)
    (st : List String × List DiagramEdge) (field : PrismaField) :
    List String × List DiagramEdge :=
  let created := st.1
  let edges := st.2
  let isRelationField := schema.models.any (fun m => m.name = field.type)
  if !isRelationField then st else
  match field.relation with
  | none => st
  | some rel =>
    match schema.models.find? (fun m => m.name = field.type) with
    | none => st
    | some targetModel =>
      let targetModelName := field.type
      let targetField := targetModel.fields.find? (inverseMatches model.name field)
      let hasForeignKey := optListNonempty rel.references
      let targetHasForeignKey :=
        optListNonempty ((targetField.bind PrismaField.relation).bind PRelationSpec.references)
      let sourceIsList := field.isList
      let targetIsList := (targetField.map PrismaField.isList).getD false
      let relationType : String :=
        if sourceIsList && targetIsList then "M-M"
        else if sourceIsList || targetIsList then "1-M"
        else "1-1"
      let isExplicitRelation := hasForeignKey && !targetHasForeignKey
      let isImplicitManyToMany :=
        sourceIsList && targetIsList && !hasForeignKey && !targetHasForeignKey
      if isExplicitRelation || isImplicitManyToMany then
        let p := sortPair model.name targetModelName
        let edgeId :=
          if isImplicitManyToMany then p.1 ++ "-" ++ p.2 ++ "-M-M"
          else model.name ++ "-" ++ targetModelName ++ "-" ++ field.name
        let reverseEdgeId :=
          if isImplicitManyToMany then p.2 ++ "-" ++ p.1 ++ "-M-M"
          else targetModelName ++ "-" ++ model.name ++ "-"
                 ++ ((targetField.map PrismaField.name).getD "")
        let shouldCreateEdge :=
          if isImplicitManyToMany then
            model.name = p.1 && !(created.contains edgeId)
              && !(created.contains reverseEdgeId)
          else
            !(created.contains edgeId) && !(created.contains reverseEdgeId)
        if shouldCreateEdge then
          let created' :=
            if edgeId = reverseEdgeId then edgeId :: created
            else reverseEdgeId :: edgeId :: created
          let actualSource := if isImplicitManyToMany then p.1 else model.name
          let actualTarget := if isImplicitManyToMany then p.2 else targetModelName
          let actualSourceField :=
            if isImplicitManyToMany then "id"
            else if hasForeignKey then firstOr rel.rfields field.name
            else field.name
          let actualTargetField :=
            if isImplicitManyToMany then "id"
            else if hasForeignKey then firstOr rel.references "id"
            else (targetField.map PrismaField.name).getD "id"
          let actualSourceHandle :=
            if isImplicitManyToMany then "id-right" else actualSourceField ++ "-right"
          let actualTargetHandle :=
            if isImplicitManyToMany then "id-left" else actualTargetField ++ "-left"
          let arrowSymbol := if relationType = "M-M" then " ↔ " else " → "
          let edgeLabel := actualSource ++ "." ++ actualSourceField ++ arrowSymbol
                             ++ actualTarget ++ "." ++ actualTargetField
          (created',
           edges ++ [{ id := edgeId
                       source := actualSource
                       target := actualTarget
                       sourceHandle := actualSourceHandle
                       targetHandle := actualTargetHandle
                       label := edgeLabel
                       relationType := relationType
                       sourceField := actualSource ++ "." ++ actualSourceField
                       targetField := actualTarget ++ "." ++ actualTargetField }])
        else (created, edges)
      else (created, edges)

/-- The edges contributed while processing one model (the `createdEdges`
set is created afresh for each model, inside the models loop). -/
def processModelEdges (schema : ParsedPrismaSchema) (model : PrismaModel) :
    List DiagramEdge :=
  (model.fields.foldl (processField schema model) ([], [])).2

/-- Node projection for one model. -/
def modelToNode (model : PrismaModel) : DiagramNode :=
  { id := model.name
    data :=
      { modelName := model.name
        fields := model.fields.map (fun field =>
          { name := field.name
            type := field.type
            isOptional := field.isOptional
            isList := field.isList
            isId := ((field.attributes.getD []).any (fun a => strContains a "@id"))
            isUnique := ((field.attributes.getD []).any (fun a => strContains a "@unique"))
            relationName := field.relation.bind PRelationSpec.rname }) } }

/-- `convertSchemaToNodesAndEdges`: nodes for every model, edges from the
per-model field loops, concatenated in document order. -/
def convertSchemaToNodesAndEdges (schema : ParsedPrismaSchema) :
    List DiagramNode × List DiagramEdge :=
  (schema.models.map modelToNode,
   schema.models.foldl (fun acc m => acc ++ processModelEdges schema m) [])

/-! ## History buffer (`use-diagram-history.ts`) -/

/-- The hook's state: the `history` array and the `historyIndex` cursor. -/
structure HistoryState (α : Type) where
  history : List α
  index : Nat
deriving Repr, DecidableEq

/-- Initial state: one entry holding the initial nodes/edges. -/
def initHistory {α : Type} (a : α) : HistoryState α := ⟨[a], 0⟩

/-- `pushToHistory`: truncate after the cursor (`slice(0, index+1)`), append
the new state, evict the oldest entry (`shift`) when 50 is exceeded, and
leave the cursor at the last entry. -/
def pushToHistory {α : Type} (s : HistoryState α) (a : α) : HistoryState α :=
  let newHistory := s.history.take (s.index + 1) ++ [a]
  if newHistory.length > 50 then
    ⟨newHistory.drop 1, newHistory.length - 2⟩
  else
    ⟨newHistory, newHistory.length - 1⟩

/-- `undo`: returns the state at the decremented cursor, or `null` (and no
cursor movement) at the oldest entry. -/
def undoHistory {α : Type} (s : HistoryState α) : Option α × HistoryState α :=
  if s.index > 0 then
    (s.history.get? (s.index - 1), ⟨s.history, s.index - 1⟩)
  else
    (none, s)

/-- `redo`: returns the state at the incremented cursor, or `null` (and no
cursor movement) at the newest entry. -/
def redoHistory {α : Type} (s : HistoryState α) : Option α × HistoryState α :=
  if s.index < s.history.length - 1 then
    (s.history.get? (s.index + 1), ⟨s.history, s.index + 1⟩)
  else
    (none, s)

/-- One user-visible operation on the history. -/
inductive HistOp (α : Type) where
  | push (a : α)
  | undo
  | redo
deriving Repr, DecidableEq

/-- Apply one operation (the returned value of undo/redo discarded). -/
def applyHistOp {α : Type} (s : HistoryState α) : HistOp α → HistoryState α
  | .push a => pushToHistory s a
  | .undo => (undoHistory s).2
  | .redo => (redoHistory s).2

/-- Run a sequence of operations from a state. -/
def runHistOps {α : Type} (s : HistoryState α) (ops : List (HistOp α)) : HistoryState α :=
  ops.foldl applyHistOp s

/-- The history invariant: between 1 and 50 entries, cursor in bounds. -/
def HistInv {α : Type} (s : HistoryState α) : Prop :=
  1 ≤ s.history.length ∧ s.history.length ≤ 50 ∧ s.index < s.history.length

instance {α : Type} (s : HistoryState α) : Decidable (HistInv s) := by
  unfold HistInv; infer_instance

end PrismaCore

namespace PrismaCore

/-! ## Character-level scanning primitives (`prisma-parser.ts` regexes) -/

/-- ASCII word character, JS `\w`. -/
def isWordChar (c : Char) : Bool := c.isAlphanum || c = '_'

/-- A greedy span of a character list: the taken prefix, the remainder, and
the length bookkeeping used for termination of the scanners. -/
structure Span (l : List Char) where
  taken : List Char
  rest : List Char
  hlen : taken.length + rest.length = l.length

/-- Longest prefix of `l` whose characters satisfy `f` (JS greedy class
repetition), together with the remainder. -/
def spanP (f : Char → Bool) : (l : List Char) → Span l
  | [] => ⟨[], [], rfl⟩
  | c :: rest =>
    if f c then
      let s := spanP f rest
      ⟨c :: s.taken, s.rest, by
        have h := s.hlen
        simp only [List.length_cons]
        omega⟩
    else
      ⟨[], c :: rest, by simp⟩

/-- Match `KW\s+(\w+)\s*\{` at the head of `l` (the declaration-header
pattern of parser and mutator); on success return the captured name and the
remainder just after the opening brace. -/
def headerMatch (kw : List Char) (l : List Char) :
    Option (String × {r : List Char // r.length < l.length}) :=
  if hpre : kw.isPrefixOf l ∧ kw ≠ [] then
    let s1 := spanP Char.isWhitespace (l.drop kw.length)
    let s2 := spanP isWordChar s1.rest
    let s3 := spanP Char.isWhitespace s2.rest
    match hr : s3.rest with
    | '\x7b' :: r4 =>
      if hok : s1.taken ≠ [] ∧ s2.taken ≠ [] then
        some (String.mk s2.taken, ⟨r4, by
          have h1 := s1.hlen
          have h2 := s2.hlen
          have h3 := s3.hlen
          rw [hr] at h3
          have hdl : (l.drop kw.length).length = l.length - kw.length :=
            List.length_drop kw.length l
          have hk : 0 < kw.length := List.length_pos.mpr hpre.2
          have hle : kw.length ≤ l.length :=
            List.IsPrefix.length_le (List.isPrefixOf_iff_prefix.mp hpre.1)
          have hw1 : 0 < s1.taken.length := List.length_pos.mpr hok.1
          simp only [List.length_cons] at h3
          omega⟩)
      else none
    | _ => none
  else none

/-- The brace-depth scan of parser and mutator: starting just after a
declaration's opening brace with depth 1, return the offset of the matching
closing brace (`endPos - startPos`), or `none` when the scan runs off the
end of the text. -/
def braceOff : List Char → Nat → Nat → Option Nat
  | [], _, _ => none
  | c :: rest, depth, pos =>
    let d := if c = '\x7b' then depth + 1 else if c = '\x7d' then depth - 1 else depth
    if d = 0 then some pos else braceOff rest d (pos + 1)

/-- The global declaration scan (the `/model\s+(\w+)\s*\x7b/g` exec loop
plus the counted brace scan, and the analogous `enum` scan): in document
order, each declaration's name, body start position and body end position
(the matching closing brace, or the start position itself when the brace
scan fails, as in the JS `endPos = startPos` initialisation).  The JS loop
resumes at `lastIndex`, just after the header's opening brace; this scan
steps one character at a time, which yields the same matches because no
header match can begin strictly inside another header: a keyword literal
inside the captured name is followed by further word characters or by the
closing of the header, never by the required whitespace-then-name. -/
def scanDecls (kw : List Char) : (l : List Char) → Nat → List (String × Nat × Nat)
  | [], _ => []
  | c :: rest, pos =>
    match headerMatch kw (c :: rest) with
    | some (name, ⟨r, _⟩) =>
      let hlen := (c :: rest).length - r.length
      let startPos := pos + hlen
      let endPos := startPos + (braceOff r 1 0).getD 0
      (name, startPos, endPos) :: scanDecls kw rest (pos + 1)
    | none => scanDecls kw rest (pos + 1)

/-- `text.substring(a, b)` on character lists. -/
def slice (l : List Char) (a b : Nat) : List Char :=
  (l.drop a).take (b - a)

end PrismaCore

namespace PrismaCore

/-! ## Comment stripping (`parsePrismaSchema` preamble) -/

/-- Is there a block-comment closer anywhere ahead?  (The non-greedy
block-comment pattern only matches openers that have a later closer.) -/
def hasBlockClose : List Char → Bool
  | [] => false
  | '*' :: '/' :: _ => true
  | _ :: rest => hasBlockClose rest

/-- Removal of block comments: at each comment opener with a later closer,
drop through the first closer and continue; an opener with no closer is left
in place (the pattern cannot match there, nor anywhere later).  Written as a
state machine over the characters; the second state is "inside a comment". -/
def stripBlockCommentsGo : Bool → List Char → List Char
  | false, [] => []
  | false, '/' :: '*' :: rest =>
    if hasBlockClose rest then stripBlockCommentsGo true rest
    else '/' :: '*' :: rest
  | false, c :: rest => c :: stripBlockCommentsGo false rest
  | true, '*' :: '/' :: rest => stripBlockCommentsGo false rest
  | true, _ :: rest => stripBlockCommentsGo true rest
  | true, [] => []

/-- Block-comment stripping entry point. -/
def stripBlockComments (l : List Char) : List Char :=
  stripBlockCommentsGo false l

/-- The negative lookahead of the line-comment pattern: the comment survives
when whitespace (possibly spanning newlines) followed by `===` comes next,
the file-separator marker. -/
def sepAhead (l : List Char) : Bool :=
  ['=', '=', '='].isPrefixOf (l.dropWhile Char.isWhitespace)

/-- Removal of `//` comments to end of line, preserving file-separator
comments.  In the second state the characters up to the next newline are
being matched by the dot-star of the pattern and are dropped. -/
def stripLineCommentsGo : Bool → List Char → List Char
  | false, [] => []
  | false, '/' :: '/' :: rest =>
    if sepAhead rest then '/' :: stripLineCommentsGo false ('/' :: rest)
    else stripLineCommentsGo true rest
  | false, c :: rest => c :: stripLineCommentsGo false rest
  | true, '\n' :: rest => '\n' :: stripLineCommentsGo false rest
  | true, _ :: rest => stripLineCommentsGo true rest
  | true, [] => []

/-- Line-comment stripping entry point. -/
def stripLineComments (l : List Char) : List Char :=
  stripLineCommentsGo false l

/-- `cleanSchema`: block comments stripped, then line comments. -/
def cleanedSchema (l : List Char) : List Char :=
  stripLineComments (stripBlockComments l)

/-! ## Datasource / generator extraction (single non-counting regex) -/

/-- Match `KW\s+(\w+)\s*\{([^}]+)\}` at the head of `l`; return the body
captured by `([^}]+)`, which stops at the first closing brace. -/
def kwBlockAt (kw : List Char) (l : List Char) : Option (List Char) :=
  if kw.isPrefixOf l then
    let s1 := spanP Char.isWhitespace (l.drop kw.length)
    let s2 := spanP isWordChar s1.rest
    let s3 := spanP Char.isWhitespace s2.rest
    match s3.rest with
    | '\x7b' :: r4 =>
      if s1.taken ≠ [] ∧ s2.taken ≠ [] then
        let s5 := spanP (fun c => !(c = '\x7d')) r4
        match s5.rest with
        | '\x7d' :: _ => if s5.taken = [] then none else some s5.taken
        | _ => none
      else none
    | _ => none
  else none

/-- Leftmost match of the datasource/generator block pattern. -/
def findKwBlock (kw : List Char) : (l : List Char) → Option (List Char)
  | [] => none
  | c :: rest =>
    match kwBlockAt kw (c :: rest) with
    | some content => some content
    | none => findKwBlock kw rest

/-- Match `KEY\s*=\s*"([^"]+)"` at the head of `l`; return the quoted value. -/
def keyStringAt (key : List Char) (l : List Char) : Option (List Char) :=
  if key.isPrefixOf l then
    let s1 := spanP Char.isWhitespace (l.drop key.length)
    match s1.rest with
    | '=' :: r2 =>
      let s2 := spanP Char.isWhitespace r2
      match s2.rest with
      | '"' :: r3 =>
        let s3 := spanP (fun c => !(c = '"')) r3
        match s3.rest with
        | '"' :: _ => if s3.taken = [] then none else some s3.taken
        | _ => none
      | _ => none
    | _ => none
  else none

/-- Leftmost match of a `key = "value"` pattern. -/
def findKeyString (key : List Char) : (l : List Char) → Option (List Char)
  | [] => none
  | c :: rest =>
    match keyStringAt key (c :: rest) with
    | some v => some v
    | none => findKeyString key rest

end PrismaCore

namespace PrismaCore

/-! ## Attribute extraction (`extractAttributes`) -/

/-- Match `(\w+)(?:\(([^)]*)\))?` immediately after an `@`; return the
rebuilt attribute string (`@name` or `@name(args)`, parens dropped when the
captured argument string is empty, as in the JS template) and the remainder
where scanning resumes. -/
def attrAfterAt (l : List Char) : Option (String × {r : List Char // r.length ≤ l.length}) :=
  let s1 := spanP isWordChar l
  if hn : s1.taken = [] then none
  else
    match hr : s1.rest with
    | '(' :: r2 =>
      let s2 := spanP (fun c => !(c = ')')) r2
      match hc : s2.rest with
      | ')' :: r3 =>
        if s2.taken = [] then
          some (String.mk ('@' :: s1.taken), ⟨s1.rest, by
            have h1 := s1.hlen
            omega⟩)
        else
          some (String.mk ('@' :: s1.taken ++ '(' :: s2.taken ++ [')']), ⟨r3, by
            have h1 := s1.hlen
            have h2 := s2.hlen
            rw [hr] at h1
            rw [hc] at h2
            simp only [List.length_cons] at h1 h2
            omega⟩)
      | _ =>
        some (String.mk ('@' :: s1.taken), ⟨s1.rest, by
          have h1 := s1.hlen
          omega⟩)
    | _ =>
      some (String.mk ('@' :: s1.taken), ⟨s1.rest, by
        have h1 := s1.hlen
        omega⟩)

/-- The global attribute scan over a piece of text, rebuilding each
attribute as an opaque string; fuel-indexed so that it is structurally
recursive.  Each step either consumes one character or an entire match (at
least one character), so `l.length + 1` fuel always suffices. -/
def scanAttrsF : Nat → List Char → List String
  | 0, _ => []
  | _, [] => []
  | fuel + 1, '@' :: rest =>
    match attrAfterAt rest with
    | some (a, ⟨r, _⟩) => a :: scanAttrsF fuel r
    | none => scanAttrsF fuel rest
  | fuel + 1, _ :: rest => scanAttrsF fuel rest

/-- The attribute scan entry point (`extractAttributes`). -/
def scanAttrs (l : List Char) : List String :=
  scanAttrsF (l.length + 1) l

/-- `attributes.length > 0 ? attributes : undefined`. -/
def optAttrs (l : List String) : Option (List String) :=
  if l = [] then none else some l

/-! ## Relation-attribute argument parsing -/

/-- Match `@relation\(([^)]*)\)` at the head of `l`. -/
def relArgsAt (l : List Char) : Option (List Char) :=
  if ("@relation(".data).isPrefixOf l then
    let s := spanP (fun c => !(c = ')')) (l.drop 10)
    match s.rest with
    | ')' :: _ => some s.taken
    | _ => none
  else none

/-- Leftmost `@relation(...)` argument string inside an attribute. -/
def findRelArgs : (l : List Char) → Option (List Char)
  | [] => none
  | c :: rest =>
    match relArgsAt (c :: rest) with
    | some v => some v
    | none => findRelArgs rest

/-- Match `name:\s*"([^"]+)"` at the head of `l`. -/
def nameArgAt (l : List Char) : Option (List Char) :=
  if ("name:".data).isPrefixOf l then
    let s1 := spanP Char.isWhitespace (l.drop 5)
    match s1.rest with
    | '"' :: r2 =>
      let s2 := spanP (fun c => !(c = '"')) r2
      match s2.rest with
      | '"' :: _ => if s2.taken = [] then none else some s2.taken
      | _ => none
    | _ => none
  else none

/-- Leftmost `name: "..."` capture. -/
def findNameArg : (l : List Char) → Option (List Char)
  | [] => none
  | c :: rest =>
    match nameArgAt (c :: rest) with
    | some v => some v
    | none => findNameArg rest

/-- Match `KEY:\s*\[([^\]]+)\]` at the head of `l` (for `fields:` and
`references:`). -/
def bracketArgAt (key : List Char) (l : List Char) : Option (List Char) :=
  if key.isPrefixOf l then
    let s1 := spanP Char.isWhitespace (l.drop key.length)
    match s1.rest with
    | '[' :: r2 =>
      let s2 := spanP (fun c => !(c = ']')) r2
      match s2.rest with
      | ']' :: _ => if s2.taken = [] then none else some s2.taken
      | _ => none
    | _ => none
  else none

/-- Leftmost `KEY: [...]` capture. -/
def findBracketArg (key : List Char) : (l : List Char) → Option (List Char)
  | [] => none
  | c :: rest =>
    match bracketArgAt key (c :: rest) with
    | some v => some v
    | none => findBracketArg key rest

/-- `args.split(",")`. -/
def splitOnComma : List Char → List (List Char)
  | [] => [[]]
  | ',' :: rest => [] :: splitOnComma rest
  | c :: rest =>
    match splitOnComma rest with
    | [] => [[c]]
    | h :: t => (c :: h) :: t

/-- JS `String.prototype.trim` on a character list. -/
def trimList (l : List Char) : List Char :=
  ((l.dropWhile Char.isWhitespace).reverse.dropWhile Char.isWhitespace).reverse

/-- `.split(",").map((x) => x.trim().replace(/"/g, ""))`. -/
def splitArgs (l : List Char) : List String :=
  (splitOnComma l).map
    (fun s => String.mk ((trimList s).filter (fun c => !(c = '"'))))

end PrismaCore

namespace PrismaCore

/-! ## Field lines, model bodies, enums, and the full parse -/

/-- `body.split("\n")`. -/
def splitOnNl : List Char → List (List Char)
  | [] => [[]]
  | '\n' :: rest => [] :: splitOnNl rest
  | c :: rest =>
    match splitOnNl rest with
    | [] => [[c]]
    | h :: t => (c :: h) :: t

/-- The field grammar `^(\w+)\s+([^\s@?]+?)(\??)(\s+.*)?$` applied to a
trimmed line, with the relation/implicit-relation detection of
`parseModelFields`.  `none` when the line does not match (such lines are
silently skipped). -/
def parseFieldLine (t : List Char) : Option PrismaField :=
  let s1 := spanP isWordChar t
  if s1.taken = [] then none else
  let s2 := spanP Char.isWhitespace s1.rest
  if s2.taken = [] then none else
  let s3 := spanP (fun c => !(c.isWhitespace || c = '@' || c = '?')) s2.rest
  if s3.taken = [] then none else
  let afterOpt : Bool × List Char :=
    match s3.rest with
    | '?' :: r => (true, r)
    | r => (false, r)
  let restOpt : Option (Option (List Char)) :=
    match afterOpt.2 with
    | [] => some none
    | c :: cs => if c.isWhitespace then some (some (c :: cs)) else none
  match restOpt with
  | none => none
  | some restPart =>
    let typePart := s3.taken
    let isList := [']', '['].isPrefixOf typePart.reverse
    let baseType := if isList then typePart.take (typePart.length - 2) else typePart
    let isOptional := afterOpt.1 || typePart.contains '?'
    let attributes := scanAttrs (restPart.getD [])
    let relationAttr := attributes.find? (fun a => ("@relation".data).isPrefixOf a.data)
    let relation : Option PRelationSpec :=
      match relationAttr with
      | some ra =>
        match findRelArgs ra.data with
        | some content =>
          some { rname := (findNameArg content).map String.mk
                 rfields := (findBracketArg ("fields:".data) content).map splitArgs
                 references := (findBracketArg ("references:".data) content).map splitArgs }
        | none => none
      | none =>
        if isList || (match baseType with | c :: _ => c.isUpper | [] => false) then
          some { rname := none, rfields := none, references := none }
        else none
    some { name := String.mk s1.taken
           type := String.mk (trimList baseType)
           isOptional := isOptional
           isList := isList
           attributes := optAttrs attributes
           relation := relation }

/-- `parseModelFields`: split the body into lines, skip blank, comment,
bare-attribute and closing-brace lines, parse the rest by the field grammar. -/
def parseModelFields (body : List Char) : List PrismaField :=
  (splitOnNl body).filterMap (fun line =>
    let t := trimList line
    if t = [] then none
    else if ("//".data).isPrefixOf t then none
    else if t.head? = some '@' then none
    else if t = ['\x7d'] then none
    else parseFieldLine t)

/-- Enum body handling: lines, trimmed, comment/blank lines dropped,
commas removed, kept in order. -/
def parseEnumValues (body : List Char) : List String :=
  (((splitOnNl body).map trimList).filter
      (fun t => !(t = []) && !(("//".data).isPrefixOf t))).map
    (fun t => String.mk (trimList (t.filter (fun c => !(c = ',')))))

/-- `parsePrismaSchema`: strip comments, extract the first datasource and
generator blocks by the non-counting regex, then models and enums by the
keyword scan with counted brace matching. -/
def parsePrismaSchema (schema : String) : ParsedPrismaSchema :=
  let clean := cleanedSchema schema.data
  let ds : Option PDatasource :=
    (findKwBlock ("datasource".data) clean).map (fun content =>
      { provider := ((findKeyString ("provider".data) content).map String.mk).getD "postgresql"
        url := (findKeyString ("url".data) content).map String.mk })
  let gen : Option PGenerator :=
    (findKwBlock ("generator".data) clean).map (fun content =>
      { provider := ((findKeyString ("provider".data) content).map String.mk).getD "prisma-client-js"
        output := (findKeyString ("output".data) content).map String.mk })
  let models := (scanDecls ("model".data) clean 0).map (fun d =>
    let body := slice clean d.2.1 d.2.2
    { name := d.1
      fields := parseModelFields body
      attributes := optAttrs (scanAttrs body) })
  let enums := (scanDecls ("enum".data) clean 0).map (fun d =>
    { name := d.1
      values := parseEnumValues (slice clean d.2.1 d.2.2) })
  { models := models, enums := enums, datasource := ds, generator := gen }

end PrismaCore

namespace PrismaCore

/-! ## Concrete documents used by individual claims -/

/-- Schema text of the 1:M inference example: model `Post` with
`authorId Int` and `author User @relation(fields: [authorId], references: [id])`,
and model `User` with `posts Post[]`. -/
def onePostUserText : String :=
  "model Post \x7b\n  authorId Int\n  author User @relation(fields: [authorId], references: [id])\n\x7d\n\nmodel User \x7b\n  posts Post[]\n\x7d\n"

/-- The document of the 1:M inference example, as the parser produces it. -/
def onePostUserDoc : ParsedPrismaSchema :=
  parsePrismaSchema onePostUserText

/-- Schema text in which `Alpha` and `Beta` each carry exactly one
list-typed field of the other's type with empty relation specs, but `Beta`
additionally carries a non-list relational field of type `Alpha`. -/
def alphaBetaExtraFieldText : String :=
  "model Alpha \x7b\n  bs Beta[]\n\x7d\n\nmodel Beta \x7b\n  a Alpha\n  as Alpha[]\n\x7d\n"

/-- The Alpha/Beta document above, as the parser produces it. -/
def alphaBetaExtraFieldDoc : ParsedPrismaSchema :=
  parsePrismaSchema alphaBetaExtraFieldText

end PrismaCore

namespace PrismaCore

/-- Depth bookkeeping for a declaration body: scan `l` updating the brace
depth from `d`, returning the final depth, or `none` as soon as the depth
reaches zero (the scan would stop inside the body). -/
def depthRun : List Char → Nat → Option Nat
  | [], d => some d
  | c :: rest, d =>
    let d2 := if c = '\x7b' then d + 1 else if c = '\x7d' then d - 1 else d
    if d2 = 0 then none else depthRun rest d2

/-- Schema text whose model body contains balanced braces inside a string
literal of an attribute argument (`bio String @default("{}")`), with a
further field after it. -/
def bioBraceText : String :=
  "model User \x7b\n  id Int @id\n  bio String @default(\"\x7b\x7d\")\n  age Int\n\x7d\n"

/-- Schema text whose datasource body contains balanced braces inside the
url string literal. -/
def dsBraceText : String :=
  "datasource db \x7b\n  provider = \"x\"\n  url = \"\x7b\x7d\"\n\x7d\n"

end PrismaCore

namespace PrismaCore

/-! ## Schema text mutator (`addRelationToSchema` and helpers) -/

/-- The drawn connection (`ConnectionInfo`). -/
structure ConnectionInfo where
  sourceModel : String
  sourceField : String
  targetModel : String
  targetField : String
deriving Repr, DecidableEq

/-- `nullable?: { source?, target? }`. -/
structure NullableOpts where
  source : Option Bool
  target : Option Bool
deriving Repr, DecidableEq

/-- The chosen relation specification (`RelationOptions`): `type` is one of
`1-1`, `1-M`, `M-M`; `mode` is `implicit` or `explicit`. -/
structure RelationOptions where
  type : String
  mode : String
  junctionOrder : Option String
  nullable : Option NullableOpts
deriving Repr, DecidableEq

/-- `options.nullable?.source` truthiness. -/
def nullableSource (o : RelationOptions) : Bool :=
  match o.nullable with
  | some n => n.source.getD false
  | none => false

/-- `l` ends with `suf`. -/
def listEndsWith (l suf : List Char) : Bool :=
  suf.reverse.isPrefixOf l.reverse

/-- `word.endsWith(...)` pluralization: `y → ies`; `s x z ch sh → +es`;
else `+s`. -/
def pluralize (word : String) : String :=
  if listEndsWith word.data ['y'] then
    String.mk (word.data.dropLast ++ "ies".data)
  else if listEndsWith word.data ['s'] || listEndsWith word.data ['x']
      || listEndsWith word.data ['z'] || listEndsWith word.data "ch".data
      || listEndsWith word.data "sh".data then
    String.mk (word.data ++ "es".data)
  else
    String.mk (word.data ++ ['s'])

/-- First character lowered (`charAt(0).toLowerCase() + slice(1)`). -/
def lowerFirst (s : String) : String :=
  match s.data with
  | [] => ""
  | c :: r => String.mk (c.toLower :: r)

/-- `modelToFieldName`: camelCase, pluralized for list sides. -/
def modelToFieldName (modelName : String) (plural : Bool) : String :=
  if plural then pluralize (lowerFirst modelName) else lowerFirst modelName

/-- `extractModels`: the mutator's own copy of the model scan (same regex
and brace counting as the parser, applied to the raw text). -/
def extractModels (schemaContent : List Char) : List (String × Nat × Nat) :=
  scanDecls ("model".data) schemaContent 0

/-- Trailing-whitespace removal (`replace(/\s+$/, '')` / `trimRight`). -/
def trimEndList (l : List Char) : List Char :=
  (l.reverse.dropWhile Char.isWhitespace).reverse

/-- `lines.join("\n")`. -/
def joinNl (ls : List (List Char)) : List Char :=
  match ls with
  | [] => []
  | [l] => l
  | l :: rest => l ++ '\n' :: joinNl rest

/-- Does `\s*NAME\s+` match here (the start-of-line anchor having been
checked by the caller)?  The leading `\s*` is the maximal whitespace run:
for a field name beginning with a word character no other split can match. -/
def lineStartMatch (fname : List Char) (l : List Char) : Bool :=
  let r := l.dropWhile Char.isWhitespace
  fname.isPrefixOf r &&
    match r.drop fname.length with
    | c :: _ => c.isWhitespace
    | [] => false

/-- The multiline test `^\s*NAME\s+` (`m` flag): tried at position 0 and
after every newline. -/
def multilineFieldTest (fname : List Char) : Bool → List Char → Bool
  | _, [] => false
  | atStart, c :: rest =>
    (atStart && lineStartMatch fname (c :: rest))
      || multilineFieldTest fname (c = '\n') rest

/-- `fieldExistsInModel`. -/
def fieldExistsInModel (schemaContent : List Char) (modelName fieldName : String) : Bool :=
  match (extractModels schemaContent).find? (fun m => m.1 = modelName) with
  | none => false
  | some m => multilineFieldTest fieldName.data true (slice schemaContent m.2.1 m.2.2)

/-- `fieldDefinition.split(/\s+/)[0]`: the longest whitespace-free prefix. -/
def firstToken (l : List Char) : List Char :=
  l.takeWhile (fun c => !c.isWhitespace)

/-- `line.replace(/\s*\}\s*$/, '')`: when everything after the last closing
brace is whitespace, remove that brace and the whitespace around it. -/
def stripTrailingBrace (line : List Char) : List Char :=
  let r := line.reverse.dropWhile Char.isWhitespace
  match r with
  | '\x7d' :: r2 => (r2.dropWhile Char.isWhitespace).reverse
  | _ => line

/-- The indentation search of `addFieldToModel`: walk from the second-last
line upwards, take the leading whitespace of the first line that is
non-blank, not a comment and not a closing brace; default two spaces. -/
def findIndentRev : List (List Char) → List Char
  | [] => "  ".data
  | line :: rest =>
    let t := trimList line
    if !(t = []) && !(("//".data).isPrefixOf t) && !(t.head? = some '\x7d') then
      line.takeWhile Char.isWhitespace
    else
      findIndentRev rest

/-- `updateFieldInModel`: replace the first line whose trimmed text starts
with the field name followed by a space or tab, preserving indentation and
stripping a stray trailing brace; rejoin, trim trailing whitespace, and put
the closing brace back on its own line. -/
def updateFieldInModel (schemaContent : List Char) (m : String × Nat × Nat)
    (fieldDefinition attributes : String) : List Char :=
  let modelBody := slice schemaContent m.2.1 m.2.2
  let fieldName := firstToken fieldDefinition.data
  let lines := splitOnNl modelBody
  let upd : List (List Char) → List (List Char) := fun ls =>
    let rec go : List (List Char) → List (List Char)
      | [] => []
      | line :: rest =>
        let tr := trimList line
        if (fieldName ++ [' ']).isPrefixOf tr || (fieldName ++ ['\t']).isPrefixOf tr then
          let cleanedLine := trimEndList (stripTrailingBrace line)
          let indent := cleanedLine.takeWhile Char.isWhitespace
          let newFieldLine := indent ++ fieldDefinition.data
              ++ (if attributes = "" then [] else ' ' :: attributes.data)
          newFieldLine :: rest
        else
          line :: go rest
    go ls
  let updatedModelBody := trimEndList (joinNl (upd lines))
  let updatedModelBody :=
    if !(listEndsWith updatedModelBody ['\n']) then updatedModelBody ++ ['\n']
    else updatedModelBody
  schemaContent.take m.2.1 ++ updatedModelBody ++ schemaContent.drop m.2.2

/-- `addFieldToModel`: no-op when the model is missing; update in place when
the field already exists (except the protected `id`); otherwise insert the
new field line directly before the closing brace, after stripping the body's
trailing whitespace. -/
def addFieldToModel (schemaContent : List Char) (modelName : String)
    (fieldDefinition attributes : String) : List Char :=
  match (extractModels schemaContent).find? (fun m => m.1 = modelName) with
  | none => schemaContent
  | some m =>
    let modelBody := slice schemaContent m.2.1 m.2.2
    let fieldName := firstToken fieldDefinition.data
    if multilineFieldTest fieldName true modelBody then
      if fieldName = "id".data then schemaContent
      else updateFieldInModel schemaContent m fieldDefinition attributes
    else
      let beforeModel := schemaContent.take m.2.1
      let afterModel := schemaContent.drop m.2.2
      let modelLines := splitOnNl modelBody
      let indent := findIndentRev ((modelLines.take (modelLines.length - 1)).reverse)
      let fieldLine := indent ++ fieldDefinition.data
          ++ (if attributes = "" then [] else ' ' :: attributes.data)
      let trimmedBody := trimEndList modelBody
      beforeModel ++ trimmedBody ++ '\n' :: fieldLine ++ afterModel

end PrismaCore

namespace PrismaCore

/-- The field pattern of `makeFieldOptional`:
`^(\w+)\s+([A-Z][a-zA-Z0-9]*)(\??)(\s+.*)?$` applied to a trimmed line.
Returns `(name, type, isOptional, trailing text)`. -/
def mfoMatch (tr : List Char) : Option (List Char × List Char × Bool × List Char) :=
  let s1 := spanP isWordChar tr
  if s1.taken = [] then none else
  let s2 := spanP Char.isWhitespace s1.rest
  if s2.taken = [] then none else
  match s2.rest with
  | c :: r2 =>
    if c.isUpper then
      let s3 := spanP (fun x => x.isAlphanum) r2
      let afterOpt : Bool × List Char :=
        match s3.rest with
        | '?' :: r => (true, r)
        | r => (false, r)
      match afterOpt.2 with
      | [] => some (s1.taken, c :: s3.taken, afterOpt.1, [])
      | d :: ds =>
        if d.isWhitespace then some (s1.taken, c :: s3.taken, afterOpt.1, d :: ds)
        else none
    else none
  | [] => none

/-- One line of the `makeFieldOptional` loop: `none` when the loop would
`continue`; `some (newLine, alreadyOptional)` when the line is processed. -/
def mfoLine (fieldName : List Char) (line : List Char) : Option (List Char × Bool) :=
  let tr := trimList line
  if (fieldName ++ [' ']).isPrefixOf tr || (fieldName ++ ['\t']).isPrefixOf tr then
    match mfoMatch tr with
    | some (nm, ty, isOpt, rest) =>
      if nm = fieldName then
        if isOpt then some (line, true)
        else
          let indent := line.takeWhile Char.isWhitespace
          let attributes := trimList rest
          some (indent ++ fieldName ++ ' ' :: ty ++ ['?']
              ++ (if attributes = [] then [] else ' ' :: attributes), false)
      else none
    | none => none
  else none

/-- Scan the body lines for the first processable field line. -/
def mfoScan (fieldName : List Char) : List (List Char) → Option (List (List Char) × Bool)
  | [] => none
  | line :: rest =>
    match mfoLine fieldName line with
    | some (nl, isOpt) => some (nl :: rest, isOpt)
    | none =>
      match mfoScan fieldName rest with
      | some (ls, b) => some (line :: ls, b)
      | none => none

/-- `makeFieldOptional`: add `?` to an existing scalar field's type,
preserving indentation and attributes; unchanged when the model or field is
missing or the field is already optional. -/
def makeFieldOptional (schemaContent : List Char) (modelName fieldName : String) : List Char :=
  match (extractModels schemaContent).find? (fun m => m.1 = modelName) with
  | none => schemaContent
  | some m =>
    let modelBody := slice schemaContent m.2.1 m.2.2
    let lines := splitOnNl modelBody
    match mfoScan fieldName.data lines with
    | none => schemaContent
    | some (_, true) => schemaContent
    | some (ls, false) =>
      let updatedModelBody := trimEndList (joinNl ls)
      if !(listEndsWith updatedModelBody ['\n']) then
        schemaContent.take m.2.1 ++ updatedModelBody ++ '\n'
          :: schemaContent.drop m.2.2
      else
        schemaContent.take m.2.1 ++ updatedModelBody ++ schemaContent.drop m.2.2

/-- `addJunctionModel`: synthesize the junction entity after the last model
(skipping trailing `\n`/space/tab), unless a model with that name exists. -/
def addJunctionModel (schemaContent : List Char) (junctionModelName sourceModel
    targetModel sourceFkField targetFkField : String) : List Char :=
  let models := extractModels schemaContent
  if models.any (fun m => m.1 = junctionModelName) then schemaContent
  else
    let insertPosition :=
      match models.getLast? with
      | none => schemaContent.length
      | some last =>
        let p0 := last.2.2 + 1
        p0 + ((schemaContent.drop p0).takeWhile
            (fun c => c = '\n' || c = ' ' || c = '\t')).length
    let junctionModel :=
      "\nmodel ".data ++ junctionModelName.data ++ " \x7b\n  ".data
        ++ sourceFkField.data ++ " Int\n  ".data
        ++ targetFkField.data ++ " Int\n  ".data
        ++ (lowerFirst sourceModel).data ++ [' '] ++ sourceModel.data
        ++ " @relation(fields: [".data ++ sourceFkField.data
        ++ "], references: [id])\n  ".data
        ++ (lowerFirst targetModel).data ++ [' '] ++ targetModel.data
        ++ " @relation(fields: [".data ++ targetFkField.data
        ++ "], references: [id])\n\n  @@id([".data
        ++ sourceFkField.data ++ ", ".data ++ targetFkField.data
        ++ "])\n\x7d\n".data
    schemaContent.take insertPosition ++ junctionModel
      ++ schemaContent.drop insertPosition

/-- `addRelationToSchema`: the top-level mutator. -/
def addRelationToSchema (schemaContent : String) (connection : ConnectionInfo)
    (options : RelationOptions) : String :=
  let text := schemaContent.data
  let sourceModel := connection.sourceModel
  let sourceField := connection.sourceField
  let targetModel := connection.targetModel
  let targetField := connection.targetField
  let targetFieldNamePlural := modelToFieldName targetModel true
  let sourceFieldNamePlural := modelToFieldName sourceModel true
  let sourceFieldNameSingular := modelToFieldName sourceModel false
  let targetFieldNameSingular := modelToFieldName targetModel false
  let sourceFkName := sourceFieldNameSingular ++ "Id"
  let targetFkName := targetFieldNameSingular ++ "Id"
  let junctionModelName :=
    if options.junctionOrder = some "BonA" then targetModel ++ "On" ++ sourceModel
    else sourceModel ++ "On" ++ targetModel
  let result :=
    if options.type = "1-1" then
      let sourceHasFk := fieldExistsInModel text sourceModel sourceField
      let targetHasFk := fieldExistsInModel text targetModel targetFkName
      let sourceFieldIsFk := sourceHasFk
          && (listEndsWith sourceField.data "Id".data
              || listEndsWith sourceField.data "id".data)
      if sourceFieldIsFk
          || (!targetHasFk && listEndsWith sourceField.data "Id".data) then
        addFieldToModel text sourceModel
          (targetFieldNameSingular ++ " " ++ targetModel)
          ("@relation(fields: [" ++ sourceField ++ "], references: ["
            ++ targetField ++ "])")
      else
        let t1 := addFieldToModel text targetModel (targetFkName ++ " Int") ""
        addFieldToModel t1 targetModel
          (targetFieldNameSingular ++ " " ++ sourceModel)
          ("@relation(fields: [" ++ targetFkName ++ "], references: [id])")
    else if options.type = "1-M" then
      let sourceHasFk := fieldExistsInModel text sourceModel sourceField
      let targetHasFk := fieldExistsInModel text targetModel sourceFkName
      let sourceFieldIsFk := sourceHasFk
          && (listEndsWith sourceField.data "Id".data
              || listEndsWith sourceField.data "id".data)
      if options.mode = "implicit" then
        if sourceFieldIsFk
            || (!targetHasFk && listEndsWith sourceField.data "Id".data) then
          let t0 := if nullableSource options then
              makeFieldOptional text sourceModel sourceField
            else text
          let t1 := addFieldToModel t0 sourceModel
            (targetFieldNameSingular ++ " " ++ targetModel)
            ("@relation(fields: [" ++ sourceField ++ "], references: ["
              ++ targetField ++ "])")
          addFieldToModel t1 targetModel
            (sourceFieldNamePlural ++ " " ++ sourceModel ++ "[]") ""
        else
          let fkType := if nullableSource options then "Int?" else "Int"
          let t1 := addFieldToModel text targetModel
            (sourceFkName ++ " " ++ fkType) ""
          let t2 := addFieldToModel t1 targetModel
            (sourceFieldNameSingular ++ " " ++ sourceModel)
            ("@relation(fields: [" ++ sourceFkName ++ "], references: [id])")
          addFieldToModel t2 sourceModel
            (targetFieldNamePlural ++ " " ++ targetModel ++ "[]") ""
      else
        if sourceFieldIsFk
            || (!targetHasFk && listEndsWith sourceField.data "Id".data) then
          let t0 := if nullableSource options then
              makeFieldOptional text sourceModel sourceField
            else text
          let t1 := addFieldToModel t0 sourceModel
            (targetFieldNameSingular ++ " " ++ targetModel)
            ("@relation(fields: [" ++ sourceField ++ "], references: ["
              ++ targetField ++ "])")
          addFieldToModel t1 targetModel
            (sourceFieldNamePlural ++ " " ++ sourceModel ++ "[]") ""
        else
          let fkType := if nullableSource options then "Int?" else "Int"
          let t1 := addFieldToModel text targetModel
            (sourceFkName ++ " " ++ fkType) ""
          let t2 := addFieldToModel t1 targetModel
            (sourceFieldNameSingular ++ " " ++ sourceModel)
            ("@relation(fields: [" ++ sourceFkName ++ "], references: [id])")
          addFieldToModel t2 sourceModel
            (targetFieldNamePlural ++ " " ++ targetModel ++ "[]") ""
    else if options.type = "M-M" then
      if options.mode = "implicit" then
        let t1 := addFieldToModel text sourceModel
          (targetFieldNamePlural ++ " " ++ targetModel ++ "[]") ""
        addFieldToModel t1 targetModel
          (sourceFieldNamePlural ++ " " ++ sourceModel ++ "[]") ""
      else
        let junctionFieldName := lowerFirst junctionModelName
        let sourceFkField := lowerFirst sourceModel ++ "Id"
        let targetFkField := lowerFirst targetModel ++ "Id"
        let t1 := addFieldToModel text sourceModel
          (junctionFieldName ++ " " ++ junctionModelName ++ "[]") ""
        let t2 := addFieldToModel t1 targetModel
          (junctionFieldName ++ " " ++ junctionModelName ++ "[]") ""
        addJunctionModel t2 junctionModelName sourceModel targetModel
          sourceFkField targetFkField
    else text
  String.mk result

end PrismaCore

namespace PrismaCore

/-- Base schema text for the mutator scenarios: two models, each with only
an identity field. -/
def mutBaseText : String :=
  "model Post \x7b\n  id Int @id\n\x7d\n\nmodel User \x7b\n  id Int @id\n\x7d\n"

/-- A one-to-many connection whose foreign-key column does not exist yet. -/
def connOneToMany : ConnectionInfo :=
  { sourceModel := "Post", sourceField := "authorId"
    targetModel := "User", targetField := "id" }

/-- Plain implicit one-to-many options. -/
def optsOneToMany : RelationOptions :=
  { type := "1-M", mode := "implicit", junctionOrder := none, nullable := none }

/-- A connection whose source field is literally `id`. -/
def connSourceId : ConnectionInfo :=
  { sourceModel := "Post", sourceField := "id"
    targetModel := "User", targetField := "id" }

/-- Implicit one-to-many with the nullable flag on the source side. -/
def optsNullableSource : RelationOptions :=
  { type := "1-M", mode := "implicit", junctionOrder := none
    nullable := some { source := some true, target := none } }

end PrismaCore

namespace PrismaCore

/-- The edge-creation policy of §4.2 step 5, stated for one source field:
either exactly the source side carries a non-empty `references` list (the
explicit-relation case), or neither side does and both sides are list-typed
(implicit many-to-many); and the edge's endpoints are the processing model
and the field's type, in one of the two orders. -/
def fieldEdgeOk (schema : ParsedPrismaSchema) (model : PrismaModel)
    (field : PrismaField) (e : DiagramEdge) : Prop :=
  ∃ rel, field.relation = some rel ∧
  ∃ targetModel, schema.models.find? (fun mm => mm.name = field.type) = some targetModel ∧
  (let targetField := targetModel.fields.find? (inverseMatches model.name field)
   ((optListNonempty rel.references = true
       ∧ optListNonempty ((targetField.bind PrismaField.relation).bind
           PRelationSpec.references) = false)
     ∨ (field.isList = true
        ∧ (targetField.map PrismaField.isList).getD false = true
        ∧ optListNonempty rel.references = false
        ∧ optListNonempty ((targetField.bind PrismaField.relation).bind
            PRelationSpec.references) = false)))
  ∧ ((e.source = model.name ∧ e.target = field.type)
     ∨ (e.source = field.type ∧ e.target = model.name))

/-- An edge is justified when some model's relational field satisfies the
edge-creation policy for it. -/
def edgeJustified (schema : ParsedPrismaSchema) (e : DiagramEdge) : Prop :=
  ∃ model, model ∈ schema.models ∧ ∃ field, field ∈ model.fields
    ∧ fieldEdgeOk schema model field e

/-- A two-model implicit many-to-many document used to instantiate the
edge-policy theorem. -/
def c8doc : ParsedPrismaSchema :=
  { models :=
      [{ name := "Red"
         fields := [{ name := "greens", type := "Green", isOptional := false,
                      isList := true, attributes := none,
                      relation := some { rname := none, rfields := none,
                                         references := none } }]
         attributes := none },
       { name := "Green"
         fields := [{ name := "reds", type := "Red", isOptional := false,
                      isList := true, attributes := none,
                      relation := some { rname := none, rfields := none,
                                         references := none } }]
         attributes := none }]
    enums := [], datasource := none, generator := none }


/-- Split a character list at dashes (used only to reason about canonical
edge-id collisions). -/
def splitDash : List Char → List (List Char)
  | [] => [[]]
  | c :: rest =>
    if c = '-' then [] :: splitDash rest
    else
      match splitDash rest with
      | [] => [[c]]
      | h :: t => (c :: h) :: t

/-- Dash-freeness of a character list. -/
def dashFree (l : List Char) : Prop := ∀ c ∈ l, c ≠ '-'

instance (l : List Char) : Decidable (dashFree l) :=
  inferInstanceAs (Decidable (∀ c ∈ l, c ≠ '-'))


/-- The Boolean test for an edge joining entities `A` and `B` (in either
direction), used to count the Converter's output edges for one pair. -/
def pairPred (A B : String) (e : DiagramEdge) : Bool :=
  (e.source = A && e.target = B) || (e.source = B && e.target = A)

/-- The record pushed by the implicit many-to-many branch of the per-field
edge loop, for an already-sorted pair of entity names. -/
def mmEdgeRaw (p : String × String) : DiagramEdge :=
  { id := p.1 ++ "-" ++ p.2 ++ "-M-M"
    source := p.1
    target := p.2
    sourceHandle := "id-right"
    targetHandle := "id-left"
    label := p.1 ++ "." ++ "id" ++ " ↔ " ++ p.2 ++ "." ++ "id"
    relationType := "M-M"
    sourceField := p.1 ++ "." ++ "id"
    targetField := p.2 ++ "." ++ "id" }

/-- The canonical implicit many-to-many edge for an unordered pair of
entity names: the names are sorted lexicographically first. -/
def mmEdge (a b : String) : DiagramEdge := mmEdgeRaw (sortPair a b)

/-- One implicit many-to-many step of the per-field edge loop, abstracted
over the model name and the field's (target) type: push the canonical edge
when the model is the lexicographically first of the pair and neither order
of the canonical id is already in the `createdEdges` set. -/
def mmStep (name ty : String) (st : List String × List DiagramEdge) :
    List String × List DiagramEdge :=
  let p := sortPair name ty
  let eid := p.1 ++ "-" ++ p.2 ++ "-M-M"
  let rid := p.2 ++ "-" ++ p.1 ++ "-M-M"
  if decide (name = p.1) && !(st.1.contains eid) && !(st.1.contains rid) then
    (if eid = rid then eid :: st.1 else rid :: eid :: st.1,
     st.2 ++ [mmEdgeRaw p])
  else st

/-- The possible shapes of an id added to the per-model `createdEdges` set
while processing field `f` of model `m`: the two orders of the sorted
many-to-many id for the pair `(m.name, f.type)`, the forward explicit id
`model-type-field`, or the reverse explicit id `type-model-inverse` whose
last component is `""` or the name of a field of the target model. -/
def idShape (schema : ParsedPrismaSchema) (m : PrismaModel) (f : PrismaField)
    (s : String) : Prop :=
  ∃ tm, schema.models.find? (fun mm => mm.name = f.type) = some tm
    ∧ (s = (sortPair m.name f.type).1 ++ "-" ++ (sortPair m.name f.type).2 ++ "-M-M"
       ∨ s = (sortPair m.name f.type).2 ++ "-" ++ (sortPair m.name f.type).1 ++ "-M-M"
       ∨ s = m.name ++ "-" ++ f.type ++ "-" ++ f.name
       ∨ ∃ e, (e = "" ∨ ∃ g ∈ tm.fields, e = g.name)
            ∧ s = f.type ++ "-" ++ m.name ++ "-" ++ e)

/-- The `createdEdges` set blocks neither order of the canonical
many-to-many id for the pair `(A, B)`. -/
def CreatedOk (A B : String) (created : List String) : Prop :=
  ∀ s ∈ created, s ≠ A ++ "-" ++ B ++ "-M-M" ∧ s ≠ B ++ "-" ++ A ++ "-M-M"

/-- The list field `tags Tag[]` of the `Song` model below. -/
def songTagsField : PrismaField :=
  { name := "tags", type := "Tag", isOptional := false, isList := true,
    attributes := none,
    relation := some { rname := none, rfields := none, references := none } }

/-- The list field `songs Song[]` of the `Tag` model below. -/
def tagSongsField : PrismaField :=
  { name := "songs", type := "Song", isOptional := false, isList := true,
    attributes := none,
    relation := some { rname := none, rfields := none, references := none } }

/-- A model `Song` with a single list field of type `Tag`. -/
def songModel : PrismaModel :=
  { name := "Song", fields := [songTagsField], attributes := none }

/-- A model `Tag` with a single list field of type `Song`. -/
def tagModel : PrismaModel :=
  { name := "Tag", fields := [tagSongsField], attributes := none }

/-- A two-model document with a single implicit many-to-many pair, used to
instantiate the deduplication theorem. -/
def c1doc : ParsedPrismaSchema :=
  { models := [songModel, tagModel],
    enums := [], datasource := none, generator := none }

end PrismaCore

/-! ## Theorems -/

namespace PrismaCore

theorem histInv_push {α : Type} (s : HistoryState α) (a : α) (h : HistInv s) :
    HistInv (pushToHistory s a) := by
  obtain ⟨h1, h2, h3⟩ := h
  have htake : (s.history.take (s.index + 1)).length = s.index + 1 := by
    rw [List.length_take]; omega
  have hlen : (s.history.take (s.index + 1) ++ [a]).length = s.index + 2 := by
    rw [List.length_append, htake]; rfl
  unfold pushToHistory HistInv
  by_cases hc : (s.history.take (s.index + 1) ++ [a]).length > 50
  · simp only [hc, if_true]
    rw [List.length_drop, hlen]
    rw [hlen] at hc
    omega
  · simp only [hc, if_false]
    rw [hlen]
    rw [hlen] at hc
    omega

theorem histInv_undo {α : Type} (s : HistoryState α) (h : HistInv s) :
    HistInv (undoHistory s).2 := by
  obtain ⟨h1, h2, h3⟩ := h
  unfold undoHistory HistInv
  by_cases hc : s.index > 0
  · simp only [hc, if_true]
    exact ⟨h1, h2, by omega⟩
  · simp only [hc, if_false]
    exact ⟨h1, h2, h3⟩

theorem histInv_redo {α : Type} (s : HistoryState α) (h : HistInv s) :
    HistInv (redoHistory s).2 := by
  obtain ⟨h1, h2, h3⟩ := h
  unfold redoHistory HistInv
  by_cases hc : s.index < s.history.length - 1
  · simp only [hc, if_true]
    exact ⟨h1, h2, by omega⟩
  · simp only [hc, if_false]
    exact ⟨h1, h2, h3⟩

theorem histInv_runOps {α : Type} (a0 : α) (ops : List (HistOp α)) :
    HistInv (runHistOps (initHistory a0) ops) := by
  suffices h : ∀ (s : HistoryState α), HistInv s → HistInv (runHistOps s ops) by
    exact h _ ⟨by simp [initHistory], by simp [initHistory], by simp [initHistory]⟩
  induction ops with
  | nil => intro s hs; exact hs
  | cons op rest ih =>
    intro s hs
    cases op with
    | push a => exact ih _ (histInv_push s a hs)
    | undo => exact ih _ (histInv_undo s hs)
    | redo => exact ih _ (histInv_redo s hs)

end PrismaCore


namespace PrismaCore

/-- C7: for the document with `Post { authorId Int; author User
@relation(fields: [authorId], references: [id]) }` and `User { posts Post[] }`,
the Converter produces exactly one edge, its relationType is `1-M`, Post is
the source (the foreign-key holder, anchored at `authorId`) and User the
target (anchored at `id`). -/
theorem claim_C7_one_to_many_inference :
    (convertSchemaToNodesAndEdges onePostUserDoc).2 =
      [{ id := "Post-User-author"
         source := "Post"
         target := "User"
         sourceHandle := "authorId-right"
         targetHandle := "id-left"
         label := "Post.authorId → User.id"
         relationType := "1-M"
         sourceField := "Post.authorId"
         targetField := "User.id" }] := by
  set_option maxRecDepth 10000 in decide

end PrismaCore

namespace PrismaCore

/-- C9: starting from the one-entry history, every pushToHistory/undo/redo
sequence keeps between 1 and 50 states with the cursor in bounds; a push
truncates after the cursor, appends the new state (evicting the single oldest
entry exactly when the 50-state capacity would be exceeded) and leaves the
cursor at the newest entry; undo and redo move the cursor one step and return
the state at the new cursor, or return null without moving at the
oldest/newest boundary respectively. -/
theorem claim_C9_history_buffer {α : Type} :
    (∀ (a0 : α) (ops : List (HistOp α)),
        HistInv (runHistOps (initHistory a0) ops))
    ∧ (∀ (s : HistoryState α) (a : α), HistInv s →
        (pushToHistory s a).history =
          (if s.history.length = 50 ∧ s.index = 49
           then (s.history.take (s.index + 1)).drop 1
           else s.history.take (s.index + 1)) ++ [a]
        ∧ (pushToHistory s a).index = (pushToHistory s a).history.length - 1
        ∧ (pushToHistory s a).history.getLast? = some a
        ∧ 1 ≤ (pushToHistory s a).history.length
        ∧ (pushToHistory s a).history.length ≤ 50)
    ∧ (∀ (s : HistoryState α), HistInv s →
        (s.index = 0 → undoHistory s = (none, s))
        ∧ (0 < s.index →
            (undoHistory s).2.history = s.history
            ∧ (undoHistory s).2.index = s.index - 1
            ∧ (undoHistory s).1 = s.history.get? (s.index - 1)
            ∧ ((undoHistory s).1).isSome = true))
    ∧ (∀ (s : HistoryState α), HistInv s →
        (s.index = s.history.length - 1 → redoHistory s = (none, s))
        ∧ (s.index < s.history.length - 1 →
            (redoHistory s).2.history = s.history
            ∧ (redoHistory s).2.index = s.index + 1
            ∧ (redoHistory s).1 = s.history.get? (s.index + 1)
            ∧ ((redoHistory s).1).isSome = true)) := by
  refine ⟨fun a0 ops => histInv_runOps a0 ops, ?_, ?_, ?_⟩
  · intro s a h
    obtain ⟨h1, h2, h3⟩ := h
    have htake : (s.history.take (s.index + 1)).length = s.index + 1 := by
      rw [List.length_take]; omega
    have hlen : (s.history.take (s.index + 1) ++ [a]).length = s.index + 2 := by
      rw [List.length_append, htake]; rfl
    by_cases hc : (s.history.take (s.index + 1) ++ [a]).length > 50
    · have hi : s.index = 49 := by rw [hlen] at hc; omega
      have hl50 : s.history.length = 50 := by omega
      have hd : (s.history.take (s.index + 1) ++ [a]).drop 1
          = (s.history.take (s.index + 1)).drop 1 ++ [a] :=
        List.drop_append_of_le_length
          (show 1 ≤ (s.history.take (s.index + 1)).length by rw [htake]; omega)
      have hhist : (pushToHistory s a).history
          = (s.history.take (s.index + 1)).drop 1 ++ [a] := by
        simp only [pushToHistory, if_pos hc]
        exact hd
      have hlen2 : ((s.history.take (s.index + 1)).drop 1 ++ [a]).length = 49 + 1 := by
        rw [List.length_append, List.length_drop, htake, List.length_cons,
          List.length_nil]
        omega
      have hidx : (pushToHistory s a).index
          = (s.history.take (s.index + 1) ++ [a]).length - 2 := by
        simp only [pushToHistory, if_pos hc]
      refine ⟨?_, ?_, ?_, ?_, ?_⟩
      · rw [hhist, if_pos ⟨hl50, hi⟩]
      · rw [hidx, hhist, hlen, hlen2]; omega
      · rw [hhist, List.getLast?_concat]
      · rw [hhist, hlen2]; omega
      · rw [hhist, hlen2]
    · have hcond : ¬ (s.history.length = 50 ∧ s.index = 49) := by
        rw [hlen] at hc; omega
      have hhist : (pushToHistory s a).history
          = s.history.take (s.index + 1) ++ [a] := by
        simp only [pushToHistory, if_neg hc]
      have hidx : (pushToHistory s a).index
          = (s.history.take (s.index + 1) ++ [a]).length - 1 := by
        simp only [pushToHistory, if_neg hc]
      refine ⟨?_, ?_, ?_, ?_, ?_⟩
      · rw [hhist, if_neg hcond]
      · rw [hidx, hhist]
      · rw [hhist, List.getLast?_concat]
      · rw [hhist, hlen]; omega
      · rw [hhist, hlen]; rw [hlen] at hc; omega
  · intro s h
    obtain ⟨h1, h2, h3⟩ := h
    constructor
    · intro h0
      unfold undoHistory
      rw [if_neg (by omega)]
    · intro hpos
      have he : undoHistory s
          = (s.history.get? (s.index - 1), ⟨s.history, s.index - 1⟩) := by
        unfold undoHistory
        rw [if_pos hpos]
      rw [he]
      refine ⟨rfl, rfl, rfl, ?_⟩
      rw [List.get?_eq_get (show s.index - 1 < s.history.length by omega)]
      rfl
  · intro s h
    obtain ⟨h1, h2, h3⟩ := h
    constructor
    · intro h0
      unfold redoHistory
      rw [if_neg (by omega)]
    · intro hlt
      have he : redoHistory s
          = (s.history.get? (s.index + 1), ⟨s.history, s.index + 1⟩) := by
        unfold redoHistory
        rw [if_pos hlt]
      rw [he]
      refine ⟨rfl, rfl, rfl, ?_⟩
      rw [List.get?_eq_get (show s.index + 1 < s.history.length by omega)]
      rfl

/-- Concrete instantiation of `claim_C9_history_buffer`: a run of five
operations keeps the invariant, and a full 50-entry buffer at its tail
evicts the oldest entry on push. -/
theorem claim_C9_history_buffer_witness :
    HistInv (runHistOps (initHistory (0 : Nat))
      [HistOp.push 1, HistOp.push 2, HistOp.undo, HistOp.push 3, HistOp.redo])
    ∧ (pushToHistory (⟨List.range 50, 49⟩ : HistoryState Nat) 777).history
        = (List.range 50).drop 1 ++ [777] := by
  constructor
  · exact claim_C9_history_buffer.1 0 _
  · have h := ((claim_C9_history_buffer.2.1 ⟨List.range 50, 49⟩ 777) (by decide)).1
    rw [h, if_pos (by decide)]
    decide

end PrismaCore

namespace PrismaCore

theorem braceOff_append (body tail : List Char) (d k e : Nat)
    (h : depthRun body d = some e) :
    braceOff (body ++ tail) d k = braceOff tail e (k + body.length) := by
  induction body generalizing d k with
  | nil =>
    simp only [depthRun, Option.some.injEq] at h
    subst h
    simp
  | cons c rest ih =>
    simp only [depthRun] at h
    by_cases hz : (if c = '\x7b' then d + 1 else if c = '\x7d' then d - 1 else d) = 0
    · rw [if_pos hz] at h
      exact absurd h (by simp)
    · rw [if_neg hz] at h
      have hstep : braceOff ((c :: rest) ++ tail) d k
          = braceOff (rest ++ tail)
              (if c = '\x7b' then d + 1 else if c = '\x7d' then d - 1 else d)
              (k + 1) := by
        simp only [List.cons_append, braceOff, List.append_eq]
        rw [if_neg hz]
      rw [hstep, ih _ _ h]
      simp only [List.length_cons]
      congr 1
      omega

end PrismaCore

namespace PrismaCore

/-- C2 counterexample: the parser does not brace-depth-scan datasource
declarations.  For a datasource whose body contains balanced braces inside
the url string literal, the parsed url is lost (`none`), while a counted
brace-depth scan of the same declaration (as used for models) finds the full
body, in which the url value `{}` is present. -/
theorem claim_C2_counterexample :
    (parsePrismaSchema dsBraceText).datasource
        = some { provider := "x", url := none }
    ∧ (scanDecls ("datasource".data) (cleanedSchema dsBraceText.data) 0).map
        (fun d => findKeyString ("url".data)
          (slice (cleanedSchema dsBraceText.data) d.2.1 d.2.2))
        = [some ['\x7b', '\x7d']] := by
  constructor
  · decide
  · decide

/-- C2 (amended): model and enum declarations are closed by the counted
brace-depth scan, so any body whose braces are balanced (depth from 1 never
reaching 0, ending at 1) is scanned in full, its closing brace found exactly
at the body's end; in particular the model with `bio String @default("{}")`
keeps all of its fields.  Datasource and generator bodies are instead taken
by a regex stopping at the first closing brace. -/
theorem claim_C2_brace_depth_scan :
    (∀ (body rest : List Char), depthRun body 1 = some 1 →
        braceOff (body ++ '\x7d' :: rest) 1 0 = some body.length)
    ∧ (parsePrismaSchema bioBraceText).models.map
        (fun m => (m.name, m.fields.map PrismaField.name))
        = [("User", ["id", "bio", "age"])] := by
  constructor
  · intro body rest h
    rw [braceOff_append body ('\x7d' :: rest) 1 0 1 h]
    simp [braceOff]
  · decide

/-- Concrete instantiation of `claim_C2_brace_depth_scan`: the body of the
`bio` example model is balanced, and the scan closes it at its full length. -/
theorem claim_C2_brace_depth_scan_witness :
    braceOff (("\n  id Int @id\n  bio String @default(\"\x7b\x7d\")\n  age Int\n".data)
        ++ '\x7d' :: "\nrest".data) 1 0
      = some ("\n  id Int @id\n  bio String @default(\"\x7b\x7d\")\n  age Int\n".data).length := by
  exact claim_C2_brace_depth_scan.1 _ _ (by decide)

end PrismaCore

namespace PrismaCore

/-- C3 counterexample: for the representative one-to-many scenario, the
second identical call does not return the first call's output character for
character — each updated model's closing brace moves onto its own line. -/
theorem claim_C3_counterexample :
    addRelationToSchema (addRelationToSchema mutBaseText connOneToMany optsOneToMany)
        connOneToMany optsOneToMany
      ≠ addRelationToSchema mutBaseText connOneToMany optsOneToMany := by
  set_option maxRecDepth 40000 in decide

/-- C3 (amended), on the representative scenario: the first call inserts the
relation fields with the closing braces glued to the new lines; the second
call updates those fields in place — no duplicate field lines — and differs
from the first output only by moving the two closing braces onto their own
lines; from the second call on the mutator is idempotent (the third call
returns the second call's output exactly). -/
theorem claim_C3_idempotent_from_second_call :
    addRelationToSchema mutBaseText connOneToMany optsOneToMany
        = "model Post \x7b\n  id Int @id\n  user User @relation(fields: [authorId], references: [id])\x7d\n\nmodel User \x7b\n  id Int @id\n  posts Post[]\x7d\n"
    ∧ addRelationToSchema (addRelationToSchema mutBaseText connOneToMany optsOneToMany)
        connOneToMany optsOneToMany
        = "model Post \x7b\n  id Int @id\n  user User @relation(fields: [authorId], references: [id])\n\x7d\n\nmodel User \x7b\n  id Int @id\n  posts Post[]\n\x7d\n"
    ∧ ((splitOnNl (addRelationToSchema (addRelationToSchema mutBaseText connOneToMany optsOneToMany)
          connOneToMany optsOneToMany).data).countP
        (fun l => (("user ".data).isPrefixOf (trimList l)))) = 1
    ∧ ((splitOnNl (addRelationToSchema (addRelationToSchema mutBaseText connOneToMany optsOneToMany)
          connOneToMany optsOneToMany).data).countP
        (fun l => (("posts ".data).isPrefixOf (trimList l)))) = 1
    ∧ addRelationToSchema (addRelationToSchema (addRelationToSchema mutBaseText
          connOneToMany optsOneToMany) connOneToMany optsOneToMany)
        connOneToMany optsOneToMany
        = addRelationToSchema (addRelationToSchema mutBaseText connOneToMany optsOneToMany)
            connOneToMany optsOneToMany := by
  set_option maxRecDepth 80000 in
  refine ⟨by decide, by decide, by decide, by decide, by decide⟩

/-- C4 counterexample: with the connection's source field literally `id` and
the nullable flag set, the nullable step (`makeFieldOptional`) rewrites the
input's `id Int @id` line of model Post to `id Int? @id`: a line declaring a
field named `id` does not appear unchanged in the output. -/
theorem claim_C4_counterexample :
    (splitOnNl mutBaseText.data).count ("  id Int @id".data) = 2
    ∧ (splitOnNl (addRelationToSchema mutBaseText connSourceId optsNullableSource).data).count
        ("  id Int @id".data) = 1
    ∧ (splitOnNl (addRelationToSchema mutBaseText connSourceId optsNullableSource).data).count
        ("  id Int? @id".data) = 1 := by
  set_option maxRecDepth 40000 in
  refine ⟨by decide, by decide, by decide⟩

end PrismaCore

namespace PrismaCore

theorem addFieldToModel_missing (text : List Char) (name fieldDefinition attributes : String)
    (h : (extractModels text).find? (fun m => m.1 = name) = none) :
    addFieldToModel text name fieldDefinition attributes = text := by
  unfold addFieldToModel
  rw [h]

theorem makeFieldOptional_missing (text : List Char) (name fieldName : String)
    (h : (extractModels text).find? (fun m => m.1 = name) = none) :
    makeFieldOptional text name fieldName = text := by
  unfold makeFieldOptional
  rw [h]

theorem fieldExistsInModel_missing (text : List Char) (name fieldName : String)
    (h : (extractModels text).find? (fun m => m.1 = name) = none) :
    fieldExistsInModel text name fieldName = false := by
  unfold fieldExistsInModel
  rw [h]

/-- C5 counterexample: with neither entity present (the empty schema), the
many-to-many explicit path still synthesizes the junction model instead of
returning the input unchanged. -/
theorem claim_C5_counterexample :
    addRelationToSchema ""
        { sourceModel := "A", sourceField := "x", targetModel := "B", targetField := "y" }
        { type := "M-M", mode := "explicit", junctionOrder := none, nullable := none }
      = "\nmodel AOnB \x7b\n  aId Int\n  bId Int\n  a A @relation(fields: [aId], references: [id])\n  b B @relation(fields: [bId], references: [id])\n\n  @@id([aId, bId])\n\x7d\n" := by
  set_option maxRecDepth 10000 in decide

/-- C5 (amended): when neither the connection's source entity nor its target
entity occurs as a model in the text, `addRelationToSchema` returns the text
unchanged for the cardinalities 1-1 and 1-M in both modes and for implicit
M-M; the explicit M-M path is the exception — it synthesizes a junction
model regardless (its existence check covers only the junction name). -/
theorem claim_C5_missing_entity_noop (schemaContent : String)
    (connection : ConnectionInfo) (options : RelationOptions)
    (hs : (extractModels schemaContent.data).find?
        (fun m => m.1 = connection.sourceModel) = none)
    (ht : (extractModels schemaContent.data).find?
        (fun m => m.1 = connection.targetModel) = none)
    (hmm : options.type = "M-M" → options.mode = "implicit") :
    addRelationToSchema schemaContent connection options = schemaContent := by
  have hafs : ∀ d a, addFieldToModel schemaContent.data connection.sourceModel d a
      = schemaContent.data := fun d a => addFieldToModel_missing _ _ d a hs
  have haft : ∀ d a, addFieldToModel schemaContent.data connection.targetModel d a
      = schemaContent.data := fun d a => addFieldToModel_missing _ _ d a ht
  have hmfo : ∀ f, makeFieldOptional schemaContent.data connection.sourceModel f
      = schemaContent.data := fun f => makeFieldOptional_missing _ _ f hs
  simp only [addRelationToSchema, hafs, haft, hmfo, ite_self]
  by_cases h11 : options.type = "1-1"
  · rw [if_pos h11]
  · rw [if_neg h11]
    by_cases h1m : options.type = "1-M"
    · rw [if_pos h1m]
    · rw [if_neg h1m]
      by_cases hM : options.type = "M-M"
      · rw [if_pos hM, if_pos (hmm hM)]
      · rw [if_neg hM]

/-- Concrete instantiation of `claim_C5_missing_entity_noop`: a 1-1 request
between two entities absent from the base schema leaves it unchanged. -/
theorem claim_C5_missing_entity_noop_witness :
    addRelationToSchema mutBaseText
        { sourceModel := "X", sourceField := "f", targetModel := "Y", targetField := "g" }
        { type := "1-1", mode := "implicit", junctionOrder := none, nullable := none }
      = mutBaseText :=
  claim_C5_missing_entity_noop mutBaseText
    { sourceModel := "X", sourceField := "f", targetModel := "Y", targetField := "g" }
    { type := "1-1", mode := "implicit", junctionOrder := none, nullable := none }
    (by set_option maxRecDepth 10000 in decide)
    (by set_option maxRecDepth 10000 in decide)
    (by decide)

end PrismaCore

namespace PrismaCore

/-- C4 (amended): the field insertion/update step never alters a field named
`id` — whenever the targeted field name is literally `id` and such a field
already exists in the addressed model, `addFieldToModel` returns the text
entirely unchanged.  (The nullable-flag step `makeFieldOptional` has no such
protection, per the counterexample.) -/
theorem claim_C4_protected_id_update (schemaContent : List Char) (modelName : String)
    (fieldDefinition attributes : String) (m : String × Nat × Nat)
    (hfind : (extractModels schemaContent).find? (fun x => x.1 = modelName) = some m)
    (hname : firstToken fieldDefinition.data = "id".data)
    (hexists : multilineFieldTest ("id".data) true (slice schemaContent m.2.1 m.2.2) = true) :
    addFieldToModel schemaContent modelName fieldDefinition attributes = schemaContent := by
  unfold addFieldToModel
  rw [hfind]
  simp only [hname, hexists, if_true]

/-- Concrete instantiation of `claim_C4_protected_id_update` on the base
schema: updating `id` in model Post is refused. -/
theorem claim_C4_protected_id_update_witness :
    addFieldToModel mutBaseText.data "Post" "id Int" "" = mutBaseText.data :=
  claim_C4_protected_id_update mutBaseText.data "Post" "id Int" "" ("Post", 12, 26)
    (by set_option maxRecDepth 10000 in decide)
    (by decide)
    (by set_option maxRecDepth 10000 in decide)

end PrismaCore

namespace PrismaCore

/-- C10: whenever `addFieldToModel` inserts a field that does not already
exist into an existing model (whose body scan found a closing brace), the
output is the text up to the body, the body with trailing whitespace
stripped, a newline, the new field line — and then immediately the model's
closing brace, with no newline in between: the inserted field is the final
text of the body and the brace sits on the same line. -/
theorem claim_C10_insert_glues_brace (schemaContent : List Char) (modelName : String)
    (fieldDefinition attributes : String) (m : String × Nat × Nat)
    (hfind : (extractModels schemaContent).find? (fun x => x.1 = modelName) = some m)
    (hexists : multilineFieldTest (firstToken fieldDefinition.data) true
        (slice schemaContent m.2.1 m.2.2) = false)
    (hbrace : (schemaContent.drop m.2.2).head? = some '\x7d') :
    addFieldToModel schemaContent modelName fieldDefinition attributes
      = schemaContent.take m.2.1
        ++ trimEndList (slice schemaContent m.2.1 m.2.2)
        ++ '\n' :: (findIndentRev (((splitOnNl (slice schemaContent m.2.1 m.2.2)).take
              ((splitOnNl (slice schemaContent m.2.1 m.2.2)).length - 1)).reverse)
            ++ fieldDefinition.data
            ++ (if attributes = "" then [] else ' ' :: attributes.data))
        ++ '\x7d' :: schemaContent.drop (m.2.2 + 1) := by
  have hafter : schemaContent.drop m.2.2 = '\x7d' :: schemaContent.drop (m.2.2 + 1) := by
    cases hd : schemaContent.drop m.2.2 with
    | nil => rw [hd] at hbrace; exact absurd hbrace (by simp)
    | cons c t =>
      rw [hd] at hbrace
      simp only [List.head?_cons, Option.some.injEq] at hbrace
      subst hbrace
      have ht : t = schemaContent.drop (m.2.2 + 1) := by
        rw [← List.tail_drop, hd]
        rfl
      rw [ht]
  unfold addFieldToModel
  rw [hfind]
  simp only [hexists, Bool.false_eq_true, if_false, hafter]

/-- Concrete instantiation of `claim_C10_insert_glues_brace`: inserting
`posts Post[]` into model User puts the closing brace right after it. -/
theorem claim_C10_insert_glues_brace_witness :
    addFieldToModel mutBaseText.data "User" "posts Post[]" ""
      = ("model Post \x7b\n  id Int @id\n\x7d\n\nmodel User \x7b\n  id Int @id\n  posts Post[]\x7d\n").data := by
  have h := claim_C10_insert_glues_brace mutBaseText.data "User" "posts Post[]" ""
    ("User", 41, 55)
    (by set_option maxRecDepth 10000 in decide)
    (by set_option maxRecDepth 10000 in decide)
    (by set_option maxRecDepth 10000 in decide)
  rw [h]
  decide

end PrismaCore

namespace PrismaCore

theorem processField_sub (schema : ParsedPrismaSchema) (model : PrismaModel)
    (st : List String × List DiagramEdge) (field : PrismaField) :
    ∀ e ∈ (processField schema model st field).2,
      e ∈ st.2 ∨ fieldEdgeOk schema model field e := by
  intro e he
  cases hrel : field.relation with
  | none =>
    simp only [processField, hrel, ite_self] at he
    exact Or.inl he
  | some rel =>
    cases hfind : schema.models.find? (fun m => m.name = field.type) with
    | none =>
      simp only [processField, hrel, hfind, ite_self] at he
      exact Or.inl he
    | some targetModel =>
      simp only [processField, hrel, hfind] at he
      split at he
      · exact Or.inl he
      · split at he
        · next hguard =>
          split at he
          · next himp =>
            split at he
            · rw [List.mem_append] at he
              rcases he with he | he
              · exact Or.inl he
              · rw [List.mem_singleton] at he
                subst he
                right
                refine ⟨rel, hrel, targetModel, hfind, ?_, ?_⟩
                · simp only [Bool.and_eq_true, Bool.not_eq_true'] at himp
                  exact Or.inr ⟨himp.1.1.1, himp.1.1.2, himp.1.2, himp.2⟩
                · unfold sortPair
                  by_cases hle : strLe model.name field.type = true
                  · rw [if_pos hle]
                    exact Or.inl ⟨rfl, rfl⟩
                  · rw [if_neg hle]
                    exact Or.inr ⟨rfl, rfl⟩
            · exact Or.inl he
          · next himp =>
            split at he
            · rw [List.mem_append] at he
              rcases he with he | he
              · exact Or.inl he
              · rw [List.mem_singleton] at he
                subst he
                right
                refine ⟨rel, hrel, targetModel, hfind, ?_, ?_⟩
                · rw [Bool.or_eq_true] at hguard
                  rcases hguard with hg | hg
                  · simp only [Bool.and_eq_true, Bool.not_eq_true'] at hg
                    exact Or.inl hg
                  · exact absurd hg himp
                · exact Or.inl ⟨rfl, rfl⟩
            · exact Or.inl he
        · exact Or.inl he

end PrismaCore

namespace PrismaCore

theorem foldl_processField_sub (schema : ParsedPrismaSchema) (model : PrismaModel) :
    ∀ (fields : List PrismaField) (st : List String × List DiagramEdge),
      ∀ e ∈ (List.foldl (processField schema model) st fields).2,
        e ∈ st.2 ∨ ∃ f, f ∈ fields ∧ fieldEdgeOk schema model f e := by
  intro fields
  induction fields with
  | nil => intro st e he; exact Or.inl he
  | cons f fs ih =>
    intro st e he
    rw [List.foldl_cons] at he
    rcases ih _ e he with h | ⟨g, hg, hok⟩
    · rcases processField_sub schema model st f e h with h2 | h2
      · exact Or.inl h2
      · exact Or.inr ⟨f, List.mem_cons_self f fs, h2⟩
    · exact Or.inr ⟨g, List.mem_cons_of_mem f hg, hok⟩

theorem processModelEdges_sub (schema : ParsedPrismaSchema) (model : PrismaModel) :
    ∀ e ∈ processModelEdges schema model,
      ∃ f, f ∈ model.fields ∧ fieldEdgeOk schema model f e := by
  intro e he
  unfold processModelEdges at he
  rcases foldl_processField_sub schema model model.fields ([], []) e he with h | h
  · exact absurd h (by simp)
  · exact h

end PrismaCore

namespace PrismaCore

theorem foldl_modelEdges_sub (schema : ParsedPrismaSchema) :
    ∀ (models : List PrismaModel) (acc : List DiagramEdge) (e : DiagramEdge),
      e ∈ List.foldl (fun a m => a ++ processModelEdges schema m) acc models →
      e ∈ acc ∨ ∃ m, m ∈ models ∧ e ∈ processModelEdges schema m := by
  intro models
  induction models with
  | nil => intro acc e he; exact Or.inl he
  | cons m ms ih =>
    intro acc e he
    rw [List.foldl_cons] at he
    rcases ih _ e he with h | ⟨m2, hm2, h2⟩
    · rw [List.mem_append] at h
      rcases h with h | h
      · exact Or.inl h
      · exact Or.inr ⟨m, List.mem_cons_self m ms, h⟩
    · exact Or.inr ⟨m2, List.mem_cons_of_mem m hm2, h2⟩

/-- C8: the Converter creates an edge only under the edge-creation policy —
every edge in its output arises from some model's relational field for which
either exactly the source side carries a non-empty references list (explicit
relation), or neither side does and both the field and its located inverse
are list-typed (implicit many-to-many); relation pairs outside this policy
(two-sided foreign keys, or no foreign key without two list sides) are
silently dropped and contribute no edge. -/
theorem claim_C8_edge_creation_policy (schema : ParsedPrismaSchema) (e : DiagramEdge)
    (he : e ∈ (convertSchemaToNodesAndEdges schema).2) :
    edgeJustified schema e := by
  unfold convertSchemaToNodesAndEdges at he
  rcases foldl_modelEdges_sub schema schema.models [] e he with h | ⟨m, hm, h⟩
  · exact absurd h (by simp)
  · rcases processModelEdges_sub schema m e h with ⟨f, hf, hok⟩
    exact ⟨m, hm, f, hf, hok⟩

/-- Concrete instantiation of `claim_C8_edge_creation_policy`: the single
edge of the two-model implicit M-M document is justified by the policy. -/
theorem claim_C8_edge_creation_policy_witness :
    edgeJustified c8doc
      { id := "Green-Red-M-M", source := "Green", target := "Red",
        sourceHandle := "id-right", targetHandle := "id-left",
        label := "Green.id ↔ Red.id", relationType := "M-M",
        sourceField := "Green.id", targetField := "Red.id" } :=
  claim_C8_edge_creation_policy c8doc _ (by
    have h : (convertSchemaToNodesAndEdges c8doc).2
        = [{ id := "Green-Red-M-M", source := "Green", target := "Red",
             sourceHandle := "id-right", targetHandle := "id-left",
             label := "Green.id ↔ Red.id", relationType := "M-M",
             sourceField := "Green.id", targetField := "Red.id" }] := by decide
    rw [h]
    exact List.mem_singleton_self _)

end PrismaCore

namespace PrismaCore

theorem charListLe_total (x y : List Char) :
    charListLe x y = true ∨ charListLe y x = true := by
  induction x generalizing y with
  | nil => exact Or.inl rfl
  | cons a as ih =>
    cases y with
    | nil => exact Or.inr rfl
    | cons b bs =>
      by_cases hab : a.toNat < b.toNat
      · left
        simp only [charListLe, hab, if_true]
      · by_cases heq : a = b
        · subst heq
          rcases ih bs with h | h
          · left
            simp only [charListLe]
            rw [if_neg hab]
            simpa using h
          · right
            simp only [charListLe]
            rw [if_neg hab]
            simpa using h
        · right
          have hba : b.toNat < a.toNat := by
            rcases Nat.lt_trichotomy a.toNat b.toNat with h | h | h
            · exact absurd h hab
            · exact absurd (Char.ext (UInt32.toNat.inj h)) heq
            · exact h
          simp only [charListLe, hba, if_true]

theorem charListLe_antisymm (x y : List Char)
    (hxy : charListLe x y = true) (hyx : charListLe y x = true) : x = y := by
  induction x generalizing y with
  | nil =>
    cases y with
    | nil => rfl
    | cons b bs => simp [charListLe] at hyx
  | cons a as ih =>
    cases y with
    | nil => simp [charListLe] at hxy
    | cons b bs =>
      simp only [charListLe] at hxy hyx
      by_cases hab : a.toNat < b.toNat
      · have : ¬ b.toNat < a.toNat := by omega
        rw [if_neg this] at hyx
        have hne : ¬ b = a := fun he => by subst he; omega
        rw [if_neg hne] at hyx
        exact absurd hyx (by simp)
      · rw [if_neg hab] at hxy
        by_cases heq : a = b
        · subst heq
          rw [if_pos rfl] at hxy
          have : ¬ a.toNat < a.toNat := by omega
          rw [if_neg this, if_pos rfl] at hyx
          rw [ih bs hxy hyx]
        · rw [if_neg heq] at hxy
          exact absurd hxy (by simp)

theorem strLe_total (a b : String) : strLe a b = true ∨ strLe b a = true :=
  charListLe_total a.data b.data

theorem strLe_antisymm (a b : String) (h1 : strLe a b = true) (h2 : strLe b a = true) :
    a = b :=
  String.ext (charListLe_antisymm a.data b.data h1 h2)

theorem sortPair_comm (a b : String) (hab : a ≠ b) : sortPair a b = sortPair b a := by
  unfold sortPair
  by_cases h1 : strLe a b = true
  · rw [if_pos h1]
    have h2 : strLe b a = false := by
      cases hsb : strLe b a with
      | false => rfl
      | true => exact absurd (strLe_antisymm a b h1 hsb) hab
    rw [h2]
    simp
  · rw [if_neg h1]
    rcases strLe_total a b with h | h
    · exact absurd h h1
    · rw [if_pos h]

theorem sortPair_cases (a b : String) :
    sortPair a b = (a, b) ∨ sortPair a b = (b, a) := by
  unfold sortPair
  by_cases h : strLe a b = true
  · rw [if_pos h]; exact Or.inl rfl
  · rw [if_neg h]; exact Or.inr rfl

end PrismaCore

namespace PrismaCore


theorem splitDash_dashFree (x : List Char) (hx : dashFree x) : splitDash x = [x] := by
  induction x with
  | nil => rfl
  | cons c rest ih =>
    have hc : c ≠ '-' := hx c (List.mem_cons_self c rest)
    have hr : dashFree rest := fun d hd => hx d (List.mem_cons_of_mem c hd)
    simp only [splitDash, if_neg hc, ih hr]

theorem splitDash_append (x y : List Char) (hx : dashFree x) :
    splitDash (x ++ '-' :: y) = x :: splitDash y := by
  induction x with
  | nil => simp [splitDash]
  | cons c rest ih =>
    have hc : c ≠ '-' := hx c (List.mem_cons_self c rest)
    have hr : dashFree rest := fun d hd => hx d (List.mem_cons_of_mem c hd)
    rw [List.cons_append]
    simp only [splitDash, if_neg hc, ih hr]

end PrismaCore

namespace PrismaCore

theorem mmId_data (a b : String) : (a ++ "-" ++ b ++ "-M-M").data
    = a.data ++ '-' :: (b.data ++ '-' :: 'M' :: '-' :: 'M' :: []) := by
  simp only [String.data_append]
  simp [List.append_assoc]

theorem explId_data (a b e : String) : (a ++ "-" ++ b ++ "-" ++ e).data
    = a.data ++ '-' :: (b.data ++ '-' :: e.data) := by
  simp only [String.data_append]
  simp [List.append_assoc]

theorem mmId_inj (a b c d : String)
    (ha : dashFree a.data) (hb : dashFree b.data)
    (hc : dashFree c.data) (hd : dashFree d.data)
    (h : a ++ "-" ++ b ++ "-M-M" = c ++ "-" ++ d ++ "-M-M") : a = c ∧ b = d := by
  have hdata := congrArg String.data h
  rw [mmId_data, mmId_data] at hdata
  have hs := congrArg splitDash hdata
  rw [splitDash_append _ _ ha, splitDash_append _ _ hb,
    splitDash_append _ _ hc, splitDash_append _ _ hd] at hs
  simp only [List.cons.injEq] at hs
  exact ⟨String.ext hs.1, String.ext hs.2.1⟩

theorem explId_ne_mmId (a b e c d : String)
    (ha : dashFree a.data) (hb : dashFree b.data) (he : dashFree e.data)
    (hc : dashFree c.data) (hd : dashFree d.data) :
    a ++ "-" ++ b ++ "-" ++ e ≠ c ++ "-" ++ d ++ "-M-M" := by
  intro h
  have hdata := congrArg String.data h
  rw [explId_data, mmId_data] at hdata
  have hs := congrArg splitDash hdata
  rw [splitDash_append _ _ ha, splitDash_append _ _ hb, splitDash_dashFree _ he,
    splitDash_append _ _ hc, splitDash_append _ _ hd,
    show splitDash ['M', '-', 'M'] = [['M'], ['M']] from rfl] at hs
  have hlen := congrArg List.length hs
  simp at hlen



theorem filter_singleton_decomp {α : Type} (q : α → Bool) (l : List α) (a : α)
    (h : l.filter q = [a]) :
    ∃ pre post, l = pre ++ a :: post
      ∧ (∀ x ∈ pre, q x = false) ∧ (∀ x ∈ post, q x = false) ∧ q a = true := by
  induction l with
  | nil => simp [List.filter] at h
  | cons x xs ih =>
    by_cases hx : q x = true
    · rw [List.filter_cons_of_pos hx] at h
      injection h with h1 h2
      subst h1
      refine ⟨[], xs, by simp, by simp, ?_, hx⟩
      intro y hy
      have := List.filter_eq_nil_iff.mp h2 y hy
      cases hq : q y with
      | false => rfl
      | true => exact absurd hq this
    · have hx2 : q x = false := by
        cases hq : q x with
        | false => rfl
        | true => exact absurd hq hx
      rw [List.filter_cons_of_neg (by simp [hx2])] at h
      obtain ⟨pre, post, hl, hpre, hpost, ha⟩ := ih h
      exact ⟨x :: pre, post, by rw [hl]; rfl,
        by intro y hy
           rcases List.mem_cons.mp hy with h | h
           · subst h; exact hx2
           · exact hpre y h,
        hpost, ha⟩

theorem find?_of_filter_singleton {α : Type} {p q : α → Bool} {l : List α} {a : α}
    (hf : l.filter q = [a]) (hpa : p a = true)
    (himpl : ∀ x ∈ l, p x = true → q x = true) :
    l.find? p = some a := by
  obtain ⟨pre, post, hl, hpre, hpost, hqa⟩ := filter_singleton_decomp q l a hf
  subst hl
  clear hf
  induction pre with
  | nil =>
    rw [List.nil_append]
    simp [List.find?, hpa]
  | cons x rest ih =>
    have hpx : p x = false := by
      cases hp : p x with
      | false => rfl
      | true =>
        have := himpl x (by simp) hp
        rw [hpre x (List.mem_cons_self x rest)] at this
        exact absurd this (by simp)
    rw [List.cons_append]
    simp only [List.find?, hpx]
    exact ih (fun y hy => hpre y (List.mem_cons_of_mem x hy))
      (fun y hy hpy => himpl y (List.mem_cons_of_mem x hy) hpy)

theorem mem_of_filter_singleton {α : Type} {q : α → Bool} {l : List α} {a : α}
    (hf : l.filter q = [a]) : a ∈ l := by
  obtain ⟨pre, post, hl, _, _, _⟩ := filter_singleton_decomp q l a hf
  subst hl
  exact List.mem_append_right pre (List.mem_cons_self a post)

theorem eq_of_filter_singleton {α : Type} {q : α → Bool} {l : List α} {a x : α}
    (hf : l.filter q = [a]) (hx : x ∈ l) (hqx : q x = true) : x = a := by
  have : x ∈ l.filter q := List.mem_filter.mpr ⟨hx, hqx⟩
  rw [hf] at this
  exact List.mem_singleton.mp this


end PrismaCore

namespace PrismaCore

theorem processField_relnone (schema : ParsedPrismaSchema) (m : PrismaModel)
    (st : List String × List DiagramEdge) (f : PrismaField)
    (hrel : f.relation = none) :
    processField schema m st f = st := by
  simp only [processField, hrel, ite_self]

theorem processField_nofind (schema : ParsedPrismaSchema) (m : PrismaModel)
    (st : List String × List DiagramEdge) (f : PrismaField)
    (hfind : schema.models.find? (fun mm => mm.name = f.type) = none) :
    processField schema m st f = st := by
  have hany : schema.models.any (fun mm => mm.name = f.type) = false := by
    cases h : schema.models.any (fun mm => mm.name = f.type) with
    | false => rfl
    | true =>
      rw [List.any_eq_true] at h
      obtain ⟨x, hx, hpx⟩ := h
      exact absurd hpx (List.find?_eq_none.mp hfind x hx)
  cases hrel : f.relation with
  | none => simp only [processField, hrel, ite_self]
  | some rel => simp only [processField, hrel, hfind, hany, Bool.not_false, if_true]

theorem processField_mm (schema : ParsedPrismaSchema) (m : PrismaModel)
    (f : PrismaField) (tm : PrismaModel) (g : PrismaField)
    (st : List String × List DiagramEdge)
    (hfind : schema.models.find? (fun mm => mm.name = f.type) = some tm)
    (hrel : f.relation = some ⟨none, none, none⟩)
    (hflist : f.isList = true)
    (htgt : tm.fields.find? (inverseMatches m.name f) = some g)
    (hgrel : g.relation = some ⟨none, none, none⟩)
    (hglist : g.isList = true) :
    processField schema m st f = mmStep m.name f.type st := by
  have hany : schema.models.any (fun mm => mm.name = f.type) = true := by
    rw [List.any_eq_true]
    refine ⟨tm, List.mem_of_find?_eq_some hfind, ?_⟩
    exact @List.find?_some _ (fun mm => decide (mm.name = f.type)) tm schema.models hfind
  simp [processField, hrel, hfind, htgt, hany, hflist, hglist, hgrel,
    optListNonempty, mmEdgeRaw, mmStep]

end PrismaCore

namespace PrismaCore

theorem processField_edges_form (schema : ParsedPrismaSchema) (m : PrismaModel)
    (st : List String × List DiagramEdge) (f : PrismaField) :
    (processField schema m st f).2 = st.2
    ∨ ∃ ed, (processField schema m st f).2 = st.2 ++ [ed]
        ∧ fieldEdgeOk schema m f ed := by
  cases hrel : f.relation with
  | none => rw [processField_relnone schema m st f hrel]; exact Or.inl rfl
  | some rel =>
    cases hfind : schema.models.find? (fun mm => mm.name = f.type) with
    | none => rw [processField_nofind schema m st f hfind]; exact Or.inl rfl
    | some tm =>
      simp only [processField, hrel, hfind]
      split
      · exact Or.inl rfl
      · split
        · next hguard =>
          split
          · next himp =>
            split
            · refine Or.inr ⟨_, rfl, rel, hrel, tm, hfind, ?_, ?_⟩
              · simp only [Bool.and_eq_true, Bool.not_eq_true'] at himp
                exact Or.inr ⟨himp.1.1.1, himp.1.1.2, himp.1.2, himp.2⟩
              · unfold sortPair
                by_cases hle : strLe m.name f.type = true
                · rw [if_pos hle]
                  exact Or.inl ⟨rfl, rfl⟩
                · rw [if_neg hle]
                  exact Or.inr ⟨rfl, rfl⟩
            · exact Or.inl rfl
          · next himp =>
            split
            · refine Or.inr ⟨_, rfl, rel, hrel, tm, hfind, ?_, ?_⟩
              · rw [Bool.or_eq_true] at hguard
                rcases hguard with hg | hg
                · simp only [Bool.and_eq_true, Bool.not_eq_true'] at hg
                  exact Or.inl hg
                · exact absurd hg himp
              · exact Or.inl ⟨rfl, rfl⟩
            · exact Or.inl rfl
        · exact Or.inl rfl

theorem processField_created_step (schema : ParsedPrismaSchema) (m : PrismaModel)
    (st : List String × List DiagramEdge) (f : PrismaField) :
    ∀ s ∈ (processField schema m st f).1, s ∈ st.1 ∨ idShape schema m f s := by
  intro s hs
  cases hrel : f.relation with
  | none => rw [processField_relnone schema m st f hrel] at hs; exact Or.inl hs
  | some rel =>
    cases hfind : schema.models.find? (fun mm => mm.name = f.type) with
    | none => rw [processField_nofind schema m st f hfind] at hs; exact Or.inl hs
    | some tm =>
      simp only [processField, hrel, hfind] at hs
      split at hs
      · exact Or.inl hs
      · split at hs
        · next hguard =>
          split at hs
          · next himp =>
            split at hs
            · split at hs
              · rcases List.mem_cons.mp hs with h | h
                · subst h
                  exact Or.inr ⟨tm, hfind, Or.inl rfl⟩
                · exact Or.inl h
              · rcases List.mem_cons.mp hs with h | h
                · subst h
                  exact Or.inr ⟨tm, hfind, Or.inr (Or.inl rfl)⟩
                · rcases List.mem_cons.mp h with h2 | h2
                  · subst h2
                    exact Or.inr ⟨tm, hfind, Or.inl rfl⟩
                  · exact Or.inl h2
            · exact Or.inl hs
          · next himp =>
            split at hs
            · split at hs
              · rcases List.mem_cons.mp hs with h | h
                · subst h
                  exact Or.inr ⟨tm, hfind, Or.inr (Or.inr (Or.inl rfl))⟩
                · exact Or.inl h
              · rcases List.mem_cons.mp hs with h | h
                · subst h
                  refine Or.inr ⟨tm, hfind, Or.inr (Or.inr (Or.inr ⟨_, ?_, rfl⟩))⟩
                  cases htf : tm.fields.find? (inverseMatches m.name f) with
                  | none => exact Or.inl rfl
                  | some g =>
                    exact Or.inr ⟨g, List.mem_of_find?_eq_some htf, rfl⟩
                · rcases List.mem_cons.mp h with h2 | h2
                  · subst h2
                    exact Or.inr ⟨tm, hfind, Or.inr (Or.inr (Or.inl rfl))⟩
                  · exact Or.inl h2
            · exact Or.inl hs
        · exact Or.inl hs

end PrismaCore

namespace PrismaCore

theorem inverseMatches_type_rel (mn : String) (fld x : PrismaField)
    (h : inverseMatches mn fld x = true) :
    x.type = mn ∧ x.relation.isSome = true := by
  unfold inverseMatches at h
  split at h
  · next htype =>
    cases hxrel : x.relation with
    | none => rw [hxrel] at h; exact absurd h (by simp)
    | some r => exact ⟨htype, rfl⟩
  · exact absurd h (by simp)

theorem fieldEdgeOk_pair (schema : ParsedPrismaSchema) (m : PrismaModel)
    (f : PrismaField) (e : DiagramEdge) (A B : String)
    (hok : fieldEdgeOk schema m f e) (hp : pairPred A B e = true) :
    f.relation.isSome = true
    ∧ ((m.name = A ∧ f.type = B) ∨ (m.name = B ∧ f.type = A)) := by
  obtain ⟨rel, hrel, tm, hfind, _, hend⟩ := hok
  refine ⟨by rw [hrel]; rfl, ?_⟩
  unfold pairPred at hp
  simp only [Bool.or_eq_true, Bool.and_eq_true, decide_eq_true_eq] at hp
  rcases hend with ⟨hs, ht⟩ | ⟨hs, ht⟩
  · rcases hp with ⟨h1, h2⟩ | ⟨h1, h2⟩
    · exact Or.inl ⟨hs.symm.trans h1, ht.symm.trans h2⟩
    · exact Or.inr ⟨hs.symm.trans h1, ht.symm.trans h2⟩
  · rcases hp with ⟨h1, h2⟩ | ⟨h1, h2⟩
    · exact Or.inr ⟨ht.symm.trans h2, hs.symm.trans h1⟩
    · exact Or.inl ⟨ht.symm.trans h2, hs.symm.trans h1⟩

theorem idShape_ne (schema : ParsedPrismaSchema) (A B : String) (hAB : A ≠ B)
    (hA : dashFree A.data) (hB : dashFree B.data)
    (hdashAll : ∀ t ∈ schema.models,
      dashFree t.name.data ∧ ∀ g ∈ t.fields, dashFree g.name.data)
    (m : PrismaModel) (f : PrismaField)
    (hmname : m.name = A) (hfname : dashFree f.name.data)
    (hftype : f.type ≠ B)
    (s : String) (hs : idShape schema m f s) :
    s ≠ A ++ "-" ++ B ++ "-M-M" ∧ s ≠ B ++ "-" ++ A ++ "-M-M" := by
  obtain ⟨tm, hfind, hcases⟩ := hs
  have htmmem : tm ∈ schema.models := List.mem_of_find?_eq_some hfind
  have htmname : tm.name = f.type :=
    of_decide_eq_true
      (@List.find?_some _ (fun mm => decide (mm.name = f.type)) tm schema.models hfind)
  have hftydash : dashFree f.type.data := by
    rw [← htmname]; exact (hdashAll tm htmmem).1
  have hmdash : dashFree m.name.data := by rw [hmname]; exact hA
  have hmB : m.name ≠ B := by rw [hmname]; exact hAB
  refine ⟨?_, ?_⟩
  · intro hEq
    rcases hcases with h1 | h1 | h1 | ⟨e, he, h1⟩
    · have hx := h1.symm.trans hEq
      rcases sortPair_cases m.name f.type with hp | hp <;> rw [hp] at hx
      · exact hftype (mmId_inj m.name f.type A B hmdash hftydash hA hB hx).2
      · exact hmB (mmId_inj f.type m.name A B hftydash hmdash hA hB hx).2
    · have hx := h1.symm.trans hEq
      rcases sortPair_cases m.name f.type with hp | hp <;> rw [hp] at hx
      · exact hmB (mmId_inj f.type m.name A B hftydash hmdash hA hB hx).2
      · exact hftype (mmId_inj m.name f.type A B hmdash hftydash hA hB hx).2
    · exact explId_ne_mmId m.name f.type f.name A B hmdash hftydash hfname hA hB
        (h1.symm.trans hEq)
    · have hedash : dashFree e.data := by
        rcases he with rfl | ⟨g, hg, rfl⟩
        · intro c hc; simp at hc
        · exact (hdashAll tm htmmem).2 g hg
      exact explId_ne_mmId f.type m.name e A B hftydash hmdash hedash hA hB
        (h1.symm.trans hEq)
  · intro hEq
    rcases hcases with h1 | h1 | h1 | ⟨e, he, h1⟩
    · have hx := h1.symm.trans hEq
      rcases sortPair_cases m.name f.type with hp | hp <;> rw [hp] at hx
      · exact hmB (mmId_inj m.name f.type B A hmdash hftydash hB hA hx).1
      · exact hftype (mmId_inj f.type m.name B A hftydash hmdash hB hA hx).1
    · have hx := h1.symm.trans hEq
      rcases sortPair_cases m.name f.type with hp | hp <;> rw [hp] at hx
      · exact hftype (mmId_inj f.type m.name B A hftydash hmdash hB hA hx).1
      · exact hmB (mmId_inj m.name f.type B A hmdash hftydash hB hA hx).1
    · exact explId_ne_mmId m.name f.type f.name B A hmdash hftydash hfname hB hA
        (h1.symm.trans hEq)
    · have hedash : dashFree e.data := by
        rcases he with rfl | ⟨g, hg, rfl⟩
        · intro c hc; simp at hc
        · exact (hdashAll tm htmmem).2 g hg
      exact explId_ne_mmId f.type m.name e B A hftydash hmdash hedash hB hA
        (h1.symm.trans hEq)

theorem processField_createdOk (schema : ParsedPrismaSchema) (A B : String)
    (hAB : A ≠ B) (hA : dashFree A.data) (hB : dashFree B.data)
    (hdashAll : ∀ t ∈ schema.models,
      dashFree t.name.data ∧ ∀ g ∈ t.fields, dashFree g.name.data)
    (m : PrismaModel) (hmname : m.name = A)
    (f : PrismaField) (hfname : dashFree f.name.data)
    (hq : f.type = B → f.relation = none)
    (st : List String × List DiagramEdge) (hok : CreatedOk A B st.1) :
    CreatedOk A B (processField schema m st f).1 := by
  by_cases hty : f.type = B
  · rw [processField_relnone schema m st f (hq hty)]; exact hok
  · intro s hs
    rcases processField_created_step schema m st f s hs with h | h
    · exact hok s h
    · exact idShape_ne schema A B hAB hA hB hdashAll m f hmname hfname hty s h

theorem foldl_createdOk (schema : ParsedPrismaSchema) (A B : String)
    (hAB : A ≠ B) (hA : dashFree A.data) (hB : dashFree B.data)
    (hdashAll : ∀ t ∈ schema.models,
      dashFree t.name.data ∧ ∀ g ∈ t.fields, dashFree g.name.data)
    (m : PrismaModel) (hmname : m.name = A) :
    ∀ (fields : List PrismaField) (st : List String × List DiagramEdge),
      (∀ f ∈ fields, dashFree f.name.data ∧ (f.type = B → f.relation = none)) →
      CreatedOk A B st.1 →
      CreatedOk A B (List.foldl (processField schema m) st fields).1 := by
  intro fields
  induction fields with
  | nil => intro st _ hok; exact hok
  | cons f fs ih =>
    intro st hf hok
    rw [List.foldl_cons]
    exact ih _ (fun g hg => hf g (List.mem_cons_of_mem f hg))
      (processField_createdOk schema A B hAB hA hB hdashAll m hmname f
        (hf f (List.mem_cons_self f fs)).1 (hf f (List.mem_cons_self f fs)).2 st hok)

theorem foldl_edges_filter (schema : ParsedPrismaSchema) (m : PrismaModel)
    (p : DiagramEdge → Bool) :
    ∀ (fields : List PrismaField) (st : List String × List DiagramEdge),
      (∀ f ∈ fields, ∀ e, fieldEdgeOk schema m f e → p e = false) →
      ((List.foldl (processField schema m) st fields).2).filter p
        = st.2.filter p := by
  intro fields
  induction fields with
  | nil => intro st _; rfl
  | cons f fs ih =>
    intro st hnop
    rw [List.foldl_cons,
      ih (processField schema m st f) (fun g hg => hnop g (List.mem_cons_of_mem f hg))]
    rcases processField_edges_form schema m st f with h | ⟨ed, hed, hok⟩
    · rw [h]
    · rw [hed, List.filter_append]
      have hpe : p ed = false := hnop f (List.mem_cons_self f fs) ed hok
      simp [hpe]

theorem pme_filter_none (schema : ParsedPrismaSchema) (p : DiagramEdge → Bool)
    (m : PrismaModel)
    (hnop : ∀ f ∈ m.fields, ∀ e, fieldEdgeOk schema m f e → p e = false) :
    (processModelEdges schema m).filter p = [] := by
  unfold processModelEdges
  rw [foldl_edges_filter schema m p m.fields ([], []) hnop]
  rfl

theorem foldl_models_filter_nil (schema : ParsedPrismaSchema) (p : DiagramEdge → Bool) :
    ∀ (l : List PrismaModel) (acc : List DiagramEdge),
      (∀ m ∈ l, (processModelEdges schema m).filter p = []) →
      (List.foldl (fun a m => a ++ processModelEdges schema m) acc l).filter p
        = acc.filter p := by
  intro l
  induction l with
  | nil => intro acc _; rfl
  | cons m ms ih =>
    intro acc hval
    rw [List.foldl_cons, ih _ (fun m2 h2 => hval m2 (List.mem_cons_of_mem m h2)),
      List.filter_append, hval m (List.mem_cons_self m ms), List.append_nil]

theorem foldl_models_filter_single (schema : ParsedPrismaSchema)
    (p : DiagramEdge → Bool) (X : DiagramEdge) (q : PrismaModel → Bool)
    (mX : PrismaModel) :
    ∀ (l : List PrismaModel) (acc : List DiagramEdge),
      l.filter q = [mX] →
      (∀ m ∈ l, (processModelEdges schema m).filter p
        = if q m = true then [X] else []) →
      (List.foldl (fun a m => a ++ processModelEdges schema m) acc l).filter p
        = acc.filter p ++ [X] := by
  intro l
  induction l with
  | nil => intro acc hq _; simp [List.filter] at hq
  | cons m ms ih =>
    intro acc hq hval
    rw [List.foldl_cons]
    by_cases hqm : q m = true
    · rw [List.filter_cons_of_pos hqm] at hq
      injection hq with h1 h2
      subst h1
      have hrest : ∀ m2 ∈ ms, (processModelEdges schema m2).filter p = [] := by
        intro m2 hm2
        have hq2 := List.filter_eq_nil_iff.mp h2 m2 hm2
        rw [hval m2 (List.mem_cons_of_mem m hm2), if_neg hq2]
      rw [foldl_models_filter_nil schema p ms _ hrest, List.filter_append,
        hval m (List.mem_cons_self m ms), if_pos hqm]
    · have hqm2 : q m = false := by
        cases h : q m with
        | false => rfl
        | true => exact absurd h hqm
      rw [List.filter_cons_of_neg (by simp [hqm2])] at hq
      rw [ih _ hq (fun m2 h2 => hval m2 (List.mem_cons_of_mem m h2)),
        List.filter_append, hval m (List.mem_cons_self m ms), if_neg hqm,
        List.append_nil]

end PrismaCore

namespace PrismaCore

theorem pred_of_filter_singleton {α : Type} {q : α → Bool} {l : List α} {a : α}
    (hf : l.filter q = [a]) : q a = true := by
  obtain ⟨_, _, _, _, _, h⟩ := filter_singleton_decomp q l a hf
  exact h

theorem createdOk_contains (A B : String) (c : List String) (h : CreatedOk A B c) :
    c.contains (A ++ "-" ++ B ++ "-M-M") = false
    ∧ c.contains (B ++ "-" ++ A ++ "-M-M") = false := by
  constructor
  · cases hc : c.contains (A ++ "-" ++ B ++ "-M-M") with
    | false => rfl
    | true => exact absurd rfl (h _ (List.mem_of_elem_eq_true hc)).1
  · cases hc : c.contains (B ++ "-" ++ A ++ "-M-M") with
    | false => rfl
    | true => exact absurd rfl (h _ (List.mem_of_elem_eq_true hc)).2

theorem mmStep_push_snd (A B : String) (st : List String × List DiagramEdge)
    (hsAB : sortPair A B = (A, B))
    (h1 : st.1.contains (A ++ "-" ++ B ++ "-M-M") = false)
    (h2 : st.1.contains (B ++ "-" ++ A ++ "-M-M") = false) :
    (mmStep A B st).2 = st.2 ++ [mmEdgeRaw (A, B)] := by
  simp only [mmStep]
  split
  · next h => rw [hsAB]
  · next h =>
    rw [hsAB] at h
    have hs : A ++ "-" ++ B ++ "-M-M" ∉ st.1 → B ++ "-" ++ A ++ "-M-M" ∈ st.1 := by
      simpa using h
    exact absurd
      (hs (fun hm => Bool.false_ne_true (h1.symm.trans (List.elem_eq_true_of_mem hm))))
      (fun hm => Bool.false_ne_true (h2.symm.trans (List.elem_eq_true_of_mem hm)))

theorem mmStep_skip (N T : String) (st : List String × List DiagramEdge)
    (hname : ¬ N = (sortPair N T).1) :
    mmStep N T st = st := by
  simp only [mmStep]
  split
  · next h =>
    simp only [Bool.and_eq_true] at h
    exact absurd (of_decide_eq_true h.1.1) hname
  · rfl

theorem qfalse_relnone (B : String) (f : PrismaField)
    (h : (decide (f.type = B) && f.relation.isSome) = false) :
    f.type = B → f.relation = none := by
  intro hty
  rw [hty] at h
  simp only [decide_eq_true_eq] at h
  cases hrel : f.relation with
  | none => rfl
  | some r =>
    rw [hrel] at h
    simp at h

theorem noPair_of (schema : ParsedPrismaSchema) (A B : String) (hAB : A ≠ B)
    (m : PrismaModel) (f : PrismaField)
    (hcond : (m.name = A ∧ (f.type = B → f.relation = none))
           ∨ (m.name = B ∧ (f.type = A → f.relation = none))
           ∨ (m.name ≠ A ∧ m.name ≠ B)) :
    ∀ e, fieldEdgeOk schema m f e → pairPred A B e = false := by
  intro e hok
  cases hp : pairPred A B e with
  | false => rfl
  | true =>
    obtain ⟨hsome, hcase⟩ := fieldEdgeOk_pair schema m f e A B hok hp
    exfalso
    rcases hcond with ⟨hmn, hq⟩ | ⟨hmn, hq⟩ | ⟨hnA, hnB⟩
    · rcases hcase with ⟨_, hty⟩ | ⟨hmB, _⟩
      · rw [hq hty] at hsome; simp at hsome
      · exact hAB (hmn.symm.trans hmB)
    · rcases hcase with ⟨hmA, _⟩ | ⟨_, hty⟩
      · exact hAB (hmA.symm.trans hmn)
      · rw [hq hty] at hsome; simp at hsome
    · rcases hcase with ⟨hmA, _⟩ | ⟨hmB, _⟩
      · exact hnA hmA
      · exact hnB hmB

theorem pme_filter_other (schema : ParsedPrismaSchema) (A B : String)
    (hAB : A ≠ B) (m : PrismaModel) (hnA : m.name ≠ A) (hnB : m.name ≠ B) :
    (processModelEdges schema m).filter (pairPred A B) = [] :=
  pme_filter_none schema (pairPred A B) m
    (fun f _ => noPair_of schema A B hAB m f (Or.inr (Or.inr ⟨hnA, hnB⟩)))

end PrismaCore

namespace PrismaCore

theorem pme_filter_push (schema : ParsedPrismaSchema) (A B : String)
    (mA mB : PrismaModel) (fA fB : PrismaField)
    (hAB : A ≠ B)
    (hA : dashFree A.data) (hB : dashFree B.data)
    (hdashAll : ∀ t ∈ schema.models,
      dashFree t.name.data ∧ ∀ g ∈ t.fields, dashFree g.name.data)
    (hmAname : mA.name = A) (hmAmem : mA ∈ schema.models)
    (hfA : mA.fields.filter (fun f => decide (f.type = B) && f.relation.isSome) = [fA])
    (hfAty : fA.type = B)
    (hfAl : fA.isList = true) (hfAr : fA.relation = some ⟨none, none, none⟩)
    (hfindB : schema.models.find? (fun mm => mm.name = fA.type) = some mB)
    (htgtB : mB.fields.find? (inverseMatches mA.name fA) = some fB)
    (hfBl : fB.isList = true) (hfBr : fB.relation = some ⟨none, none, none⟩)
    (hsAB : sortPair A B = (A, B)) :
    (processModelEdges schema mA).filter (pairPred A B) = [mmEdge A B] := by
  obtain ⟨pre, post, hdecomp, hpre, hpost, _⟩ :=
    filter_singleton_decomp (fun f => decide (f.type = B) && f.relation.isSome)
      mA.fields fA hfA
  have hqpre : ∀ f ∈ pre, f.type = B → f.relation = none :=
    fun f hf => qfalse_relnone B f (hpre f hf)
  have hqpost : ∀ f ∈ post, f.type = B → f.relation = none :=
    fun f hf => qfalse_relnone B f (hpost f hf)
  have hdashA : ∀ f ∈ mA.fields, dashFree f.name.data := (hdashAll mA hmAmem).2
  have hC1 : CreatedOk A B (List.foldl (processField schema mA) ([], []) pre).1 :=
    foldl_createdOk schema A B hAB hA hB hdashAll mA hmAname pre ([], [])
      (fun f hf =>
        ⟨hdashA f (by rw [hdecomp]; exact List.mem_append_left _ hf), hqpre f hf⟩)
      (fun s hs => absurd hs (List.not_mem_nil s))
  have hE1 : ((List.foldl (processField schema mA) ([], []) pre).2).filter
      (pairPred A B) = [] := by
    rw [foldl_edges_filter schema mA (pairPred A B) pre ([], [])
      (fun f hf => noPair_of schema A B hAB mA f (Or.inl ⟨hmAname, hqpre f hf⟩))]
    rfl
  have hstep2 :
      (processField schema mA (List.foldl (processField schema mA) ([], []) pre) fA).2
        = (List.foldl (processField schema mA) ([], []) pre).2 ++ [mmEdgeRaw (A, B)] := by
    rw [processField_mm schema mA fA mB fB _ hfindB hfAr hfAl htgtB hfBr hfBl,
      hmAname, hfAty]
    exact mmStep_push_snd A B _ hsAB
      (createdOk_contains A B _ hC1).1 (createdOk_contains A B _ hC1).2
  unfold processModelEdges
  rw [hdecomp, List.foldl_append, List.foldl_cons]
  rw [foldl_edges_filter schema mA (pairPred A B) post _
    (fun f hf => noPair_of schema A B hAB mA f (Or.inl ⟨hmAname, hqpost f hf⟩))]
  rw [hstep2, List.filter_append, hE1]
  have hpp : pairPred A B (mmEdgeRaw (A, B)) = true := by
    simp [pairPred, mmEdgeRaw]
  simp [hpp, mmEdge, hsAB]

theorem pme_filter_skip (schema : ParsedPrismaSchema) (A B : String)
    (mB mA : PrismaModel) (fB fA : PrismaField)
    (hAB : A ≠ B)
    (hmBname : mB.name = B)
    (hfB : mB.fields.filter (fun f => decide (f.type = A) && f.relation.isSome) = [fB])
    (hfBty : fB.type = A)
    (hfBl : fB.isList = true) (hfBr : fB.relation = some ⟨none, none, none⟩)
    (hfindA : schema.models.find? (fun mm => mm.name = fB.type) = some mA)
    (htgtA : mA.fields.find? (inverseMatches mB.name fB) = some fA)
    (hfAl : fA.isList = true) (hfAr : fA.relation = some ⟨none, none, none⟩)
    (hsBA : sortPair B A = (A, B)) :
    (processModelEdges schema mB).filter (pairPred A B) = [] := by
  obtain ⟨pre, post, hdecomp, hpre, hpost, _⟩ :=
    filter_singleton_decomp (fun f => decide (f.type = A) && f.relation.isSome)
      mB.fields fB hfB
  have hqpre : ∀ f ∈ pre, f.type = A → f.relation = none :=
    fun f hf => qfalse_relnone A f (hpre f hf)
  have hqpost : ∀ f ∈ post, f.type = A → f.relation = none :=
    fun f hf => qfalse_relnone A f (hpost f hf)
  have hskip : processField schema mB (List.foldl (processField schema mB) ([], []) pre) fB
      = List.foldl (processField schema mB) ([], []) pre := by
    rw [processField_mm schema mB fB mA fA _ hfindA hfBr hfBl htgtA hfAr hfAl,
      hmBname, hfBty]
    refine mmStep_skip B A _ ?_
    rw [hsBA]
    exact fun h => hAB h.symm
  unfold processModelEdges
  rw [hdecomp, List.foldl_append, List.foldl_cons]
  rw [foldl_edges_filter schema mB (pairPred A B) post _
    (fun f hf => noPair_of schema A B hAB mB f (Or.inr (Or.inl ⟨hmBname, hqpost f hf⟩)))]
  rw [hskip]
  rw [foldl_edges_filter schema mB (pairPred A B) pre ([], [])
    (fun f hf => noPair_of schema A B hAB mB f (Or.inr (Or.inl ⟨hmBname, hqpre f hf⟩)))]
  rfl

end PrismaCore

namespace PrismaCore

theorem convert_mm_sorted (doc : ParsedPrismaSchema) (A B : String)
    (mA mB : PrismaModel) (fA fB : PrismaField)
    (hAB : A ≠ B)
    (hdash : ∀ m ∈ doc.models,
      dashFree m.name.data ∧ ∀ f ∈ m.fields, dashFree f.name.data)
    (hmA : doc.models.filter (fun m => decide (m.name = A)) = [mA])
    (hmB : doc.models.filter (fun m => decide (m.name = B)) = [mB])
    (hfA : mA.fields.filter (fun f => decide (f.type = B) && f.relation.isSome) = [fA])
    (hfB : mB.fields.filter (fun f => decide (f.type = A) && f.relation.isSome) = [fB])
    (hfAl : fA.isList = true) (hfAr : fA.relation = some ⟨none, none, none⟩)
    (hfBl : fB.isList = true) (hfBr : fB.relation = some ⟨none, none, none⟩)
    (hle : strLe A B = true) :
    ((convertSchemaToNodesAndEdges doc).2).filter (pairPred A B) = [mmEdge A B] := by
  have hmAmem : mA ∈ doc.models := mem_of_filter_singleton hmA
  have hmBmem : mB ∈ doc.models := mem_of_filter_singleton hmB
  have hmA0 : (fun m : PrismaModel => decide (m.name = A)) mA = true :=
    @pred_of_filter_singleton _ (fun m => decide (m.name = A)) doc.models mA hmA
  have hmB0 : (fun m : PrismaModel => decide (m.name = B)) mB = true :=
    @pred_of_filter_singleton _ (fun m => decide (m.name = B)) doc.models mB hmB
  have hmAname : mA.name = A := of_decide_eq_true hmA0
  have hmBname : mB.name = B := of_decide_eq_true hmB0
  have hA : dashFree A.data := by rw [← hmAname]; exact (hdash mA hmAmem).1
  have hB : dashFree B.data := by rw [← hmBname]; exact (hdash mB hmBmem).1
  have hfAq : (fun f : PrismaField => decide (f.type = B) && f.relation.isSome) fA
      = true :=
    @pred_of_filter_singleton _ (fun f => decide (f.type = B) && f.relation.isSome)
      mA.fields fA hfA
  rw [show (fun f : PrismaField => decide (f.type = B) && f.relation.isSome) fA
      = (decide (fA.type = B) && fA.relation.isSome) from rfl, Bool.and_eq_true] at hfAq
  have hfAty : fA.type = B := of_decide_eq_true hfAq.1
  have hfBq : (fun f : PrismaField => decide (f.type = A) && f.relation.isSome) fB
      = true :=
    @pred_of_filter_singleton _ (fun f => decide (f.type = A) && f.relation.isSome)
      mB.fields fB hfB
  rw [show (fun f : PrismaField => decide (f.type = A) && f.relation.isSome) fB
      = (decide (fB.type = A) && fB.relation.isSome) from rfl, Bool.and_eq_true] at hfBq
  have hfBty : fB.type = A := of_decide_eq_true hfBq.1
  have hfindB : doc.models.find? (fun mm => mm.name = fA.type) = some mB := by
    rw [hfAty]
    exact find?_of_filter_singleton hmB (decide_eq_true hmBname) (fun x _ h => h)
  have hfindA : doc.models.find? (fun mm => mm.name = fB.type) = some mA := by
    rw [hfBty]
    exact find?_of_filter_singleton hmA (decide_eq_true hmAname) (fun x _ h => h)
  have htgtB : mB.fields.find? (inverseMatches mA.name fA) = some fB := by
    apply find?_of_filter_singleton hfB
    · unfold inverseMatches
      rw [if_pos (show fB.type = mA.name by rw [hfBty, hmAname])]
      rw [hfBr, hfAr]
      rfl
    · intro x hx hinv
      obtain ⟨hty, hsome⟩ := inverseMatches_type_rel mA.name fA x hinv
      rw [Bool.and_eq_true]
      exact ⟨decide_eq_true (hty.trans hmAname), hsome⟩
  have htgtA : mA.fields.find? (inverseMatches mB.name fB) = some fA := by
    apply find?_of_filter_singleton hfA
    · unfold inverseMatches
      rw [if_pos (show fA.type = mB.name by rw [hfAty, hmBname])]
      rw [hfAr, hfBr]
      rfl
    · intro x hx hinv
      obtain ⟨hty, hsome⟩ := inverseMatches_type_rel mB.name fB x hinv
      rw [Bool.and_eq_true]
      exact ⟨decide_eq_true (hty.trans hmBname), hsome⟩
  have hsAB : sortPair A B = (A, B) := by unfold sortPair; rw [if_pos hle]
  have hsBA : sortPair B A = (A, B) := by
    unfold sortPair
    by_cases h2 : strLe B A = true
    · exact absurd (strLe_antisymm B A h2 hle) (Ne.symm hAB)
    · rw [if_neg h2]
  have hval : ∀ m ∈ doc.models, (processModelEdges doc m).filter (pairPred A B)
      = if decide (m.name = A) = true then [mmEdge A B] else [] := by
    intro m hm
    by_cases hname : m.name = A
    · rw [if_pos (decide_eq_true hname)]
      have hmeq : m = mA := eq_of_filter_singleton hmA hm (decide_eq_true hname)
      subst hmeq
      exact pme_filter_push doc A B m mB fA fB hAB hA hB hdash hmAname hm
        hfA hfAty hfAl hfAr hfindB htgtB hfBl hfBr hsAB
    · rw [if_neg (fun h => hname (of_decide_eq_true h))]
      by_cases hnameB : m.name = B
      · have hmeq : m = mB := eq_of_filter_singleton hmB hm (decide_eq_true hnameB)
        subst hmeq
        exact pme_filter_skip doc A B m mA fB fA hAB hmBname hfB hfBty hfBl hfBr
          hfindA htgtA hfAl hfAr hsBA
      · exact pme_filter_other doc A B hAB m hname hnameB
  show ((doc.models.foldl (fun acc m => acc ++ processModelEdges doc m) []).filter
    (pairPred A B)) = [mmEdge A B]
  rw [foldl_models_filter_single doc (pairPred A B) (mmEdge A B)
    (fun m => decide (m.name = A)) mA doc.models [] hmA hval]
  rfl

end PrismaCore

namespace PrismaCore

/-- C1: for a pair of distinct entities `A` and `B` (dash-free names, each
occurring once in the document) where `A` has exactly one relational field
of type `B` and `B` exactly one relational field of type `A`, both being
list-typed with empty relation specs (an implicit many-to-many with no
foreign keys and no competing relational field between the pair), the
Converter emits exactly one edge between `A` and `B` — in either document
order — and it is the canonical edge whose id joins the two names sorted
lexicographically as `<first>-<second>-M-M`. The claim as literally stated
(requiring only one *list-typed* field of the other's type on each side) is
refuted by `claim_C1_counterexample`; a further non-list relational field of
the partner's type diverts the inverse-field lookup and suppresses the edge. -/
theorem claim_C1_implicit_mm_dedup (doc : ParsedPrismaSchema) (A B : String)
    (mA mB : PrismaModel) (fA fB : PrismaField)
    (hAB : A ≠ B)
    (hdash : ∀ m ∈ doc.models,
      dashFree m.name.data ∧ ∀ f ∈ m.fields, dashFree f.name.data)
    (hmA : doc.models.filter (fun m => decide (m.name = A)) = [mA])
    (hmB : doc.models.filter (fun m => decide (m.name = B)) = [mB])
    (hfA : mA.fields.filter (fun f => decide (f.type = B) && f.relation.isSome) = [fA])
    (hfB : mB.fields.filter (fun f => decide (f.type = A) && f.relation.isSome) = [fB])
    (hfAl : fA.isList = true) (hfAr : fA.relation = some ⟨none, none, none⟩)
    (hfBl : fB.isList = true) (hfBr : fB.relation = some ⟨none, none, none⟩) :
    ((convertSchemaToNodesAndEdges doc).2).filter (pairPred A B) = [mmEdge A B] := by
  rcases strLe_total A B with hle | hle
  · exact convert_mm_sorted doc A B mA mB fA fB hAB hdash hmA hmB hfA hfB
      hfAl hfAr hfBl hfBr hle
  · have h2 := convert_mm_sorted doc B A mB mA fB fA (Ne.symm hAB) hdash hmB hmA
      hfB hfA hfBl hfBr hfAl hfAr hle
    have hfeq : ∀ e ∈ (convertSchemaToNodesAndEdges doc).2,
        pairPred A B e = pairPred B A e := by
      intro e _
      unfold pairPred
      rw [Bool.or_comm]
    rw [List.filter_congr hfeq, h2,
      show mmEdge B A = mmEdge A B from by
        unfold mmEdge; rw [sortPair_comm B A (Ne.symm hAB)]]

/-- Instantiation of `claim_C1_implicit_mm_dedup` on the two-model
`Song`/`Tag` document: exactly the canonical sorted edge appears. -/
theorem claim_C1_implicit_mm_dedup_witness :
    ((convertSchemaToNodesAndEdges c1doc).2).filter (pairPred "Song" "Tag")
      = [mmEdge "Song" "Tag"] :=
  claim_C1_implicit_mm_dedup c1doc "Song" "Tag" songModel tagModel
    songTagsField tagSongsField
    (by decide) (by decide) (by decide) (by decide) (by decide) (by decide)
    (by decide) (by decide) (by decide) (by decide)

/-- The unamended form of C1 is false: in the `Alpha`/`Beta` document each
model has exactly one list-typed field of the other's type whose relation
spec carries no references (the literal hypothesis of the claim), yet the
Converter emits no edge at all — the extra non-list field `a Alpha` of
`Beta` is found first by the inverse-field lookup on both sides, making the
relation look one-to-many with no foreign key, which the policy drops. -/
theorem claim_C1_counterexample :
    (alphaBetaExtraFieldDoc.models.map (fun m =>
        (m.fields.filter (fun f => f.isList
           && decide (f.type = (if m.name = "Alpha" then "Beta" else "Alpha"))
           && !(optListNonempty (f.relation.bind PRelationSpec.references)))).length))
      = [1, 1]
    ∧ (convertSchemaToNodesAndEdges alphaBetaExtraFieldDoc).2 = [] := by
  constructor
  · set_option maxRecDepth 40000 in decide
  · set_option maxRecDepth 40000 in decide

end PrismaCore
